import Mathlib

/-!
Verification development for the `vault_lib` package (AI-grep repository).

The Python sources are shallowly embedded: pure functions become Lean
functions over `List Char` / `String` / `Rat`; the SQLite store becomes an
explicit record value and the indexing transaction becomes explicit state
passing with an `Except` for a mid-transaction failure.  Numeric scores,
which the code holds in Python floats, are modelled over `Rat`; the two
irrational primitives of the similarity pipeline (`math.log`, `math.sqrt`)
are taken as parameters constrained by the properties of the real
functions that the proofs use.

Sections carry their `line_start`/`line_end` ranges; the date-detection
metadata (`section_date`, `section_header`, `section_type` and the
`date_header` type upgrade), which no verified claim mentions, is not
modelled.  Regex character classes `\s` and `\w` are modelled over their
ASCII range.
-/

namespace VaultLib

/-- Python whitespace characters (`str.strip`, regex `\s`), ASCII range.
Lines are split on newlines before these predicates run, so the
`\n`/`\r` members never occur in practice. -/
def isPySpace (c : Char) : Bool :=
  c = ' ' || c = '\t' || c = '\n' || c = '\r' || c = Char.ofNat 11 || c = Char.ofNat 12

/-- Regex `\w` (ASCII): letters, digits, underscore. -/
def isWordChar (c : Char) : Bool :=
  c.isAlphanum || c = '_'

/-- Python `str.strip()` on a list of characters. -/
def pyStripL (cs : List Char) : List Char :=
  ((cs.dropWhile isPySpace).reverse.dropWhile isPySpace).reverse

/-- Python `str.strip()`. -/
def pyStrip (s : String) : String :=
  ⟨pyStripL s.toList⟩

/-- `sections._is_blank_or_separator`: blank line, or 3+ chars drawn from
`-=_*` (regex `^[-=_*]{3,}\s*$` applied to the stripped line). -/
def _is_blank_or_separator (line : String) : Bool :=
  let stripped := pyStripL line.toList
  stripped.isEmpty ||
    (stripped.length ≥ 3 && stripped.all fun c => c = '-' || c = '=' || c = '_' || c = '*')

/-- `sections._is_markdown_header` as a Boolean: regex `^(#{1,6})\s+`.
With backtracking this matches exactly when the count `c` of leading `#`
satisfies `1 ≤ c ≤ 6` and the character right after them is whitespace
(the positions between hashes hold `#`, never whitespace). -/
def _is_markdown_header (line : String) : Bool :=
  let cs := line.toList
  let c := (cs.takeWhile (· = '#')).length
  1 ≤ c && c ≤ 6 &&
    (match cs.drop c with
     | ch :: _ => isPySpace ch
     | [] => false)

/-! Tiny matching combinators for the handful of regexes the extractor
uses.  Each matcher consumes from the front of a `List Char` and returns
the remaining input, or `none` on failure.  All the regexes concerned are
deterministic in the sense that a greedy repeat is never followed by a
character its own class could consume, so no backtracking is needed
inside a single alternative; alternatives are tried in source order. -/

/-- Consume exactly one character satisfying `p`. -/
def matchOne (p : Char → Bool) : List Char → Option (List Char)
  | c :: rest => if p c then some rest else none
  | [] => none

/-- Consume exactly `k` characters satisfying `p` (regex `p{k}`). -/
def matchCount (p : Char → Bool) : Nat → List Char → Option (List Char)
  | 0, cs => some cs
  | k + 1, cs => (matchOne p cs).bind (matchCount p k)

/-- Consume one-or-more characters satisfying `p`, greedily (regex `p+`). -/
def matchMany1 (p : Char → Bool) (cs : List Char) : Option (List Char) :=
  match cs.takeWhile p with
  | [] => none
  | taken => some (cs.drop taken.length)

/-- Consume zero-or-more characters satisfying `p`, greedily (regex `p*`). -/
def matchMany0 (p : Char → Bool) (cs : List Char) : Option (List Char) :=
  some (cs.dropWhile p)

/-- Consume a literal string. -/
def matchLit (kw : String) (cs : List Char) : Option (List Char) :=
  if kw.toList.isPrefixOf cs then some (cs.drop kw.toList.length) else none

/-- A date separator: a dash or a slash. -/
def matchDateSep : List Char → Option (List Char) :=
  matchOne fun c => c = '-' || c = '/'

/-- Four digits, a date separator, two digits, a date separator, two
digits — the numeric date core of the log patterns. -/
def matchLogDate (cs : List Char) : Option (List Char) := do
  let cs ← matchCount Char.isDigit 4 cs
  let cs ← matchDateSep cs
  let cs ← matchCount Char.isDigit 2 cs
  let cs ← matchDateSep cs
  matchCount Char.isDigit 2 cs

/-- `sections._is_log_timestamp`: one of the three source patterns —
an optional `[` then a numeric date then a whitespace, `]` or `T`;
a `[LEVEL]` tag, optional spaces, then a numeric date;
or a bare `hh:mm:ss` time.  (In the first pattern, when the optional `[`
is present but no date follows, re-trying without consuming it also fails
since `[` is not a digit; consuming it greedily is therefore faithful.) -/
def _is_log_timestamp (line : String) : Bool :=
  let cs := line.toList
  let isoStart : Option (List Char) := do
    let cs ← match cs with
      | '[' :: t => pure t
      | _ => pure cs
    let cs ← matchLogDate cs
    matchOne (fun c => isPySpace c || c = ']' || c = 'T') cs
  let levelDate : Option (List Char) := do
    let cs ← matchOne (· = '[') cs
    let cs ← matchMany1 isWordChar cs
    let cs ← matchOne (· = ']') cs
    let cs ← matchMany0 isPySpace cs
    matchLogDate cs
  let bareTime : Option (List Char) := do
    let cs ← matchCount Char.isDigit 2 cs
    let cs ← matchOne (· = ':') cs
    let cs ← matchCount Char.isDigit 2 cs
    let cs ← matchOne (· = ':') cs
    matchCount Char.isDigit 2 cs
  isoStart.isSome || levelDate.isSome || bareTime.isSome

/-- A keyword alternative followed by `\s+` (shared shape of several code
patterns). -/
def matchKwSpace (kw : String) (cs : List Char) : Option (List Char) := do
  let cs ← matchLit kw cs
  matchMany1 isPySpace cs

/-- The apostrophe character, written by code to keep the source free of
quote-literal pitfalls. -/
def aposChar : Char := Char.ofNat 39

/-- A triple single-quote opener. -/
def squote3 : List Char := [aposChar, aposChar, aposChar]

/-- A triple double-quote opener. -/
def dquote3 : List Char := ['"', '"', '"']

/-- `sections._is_code_block_start(line, file_ext)`: per-extension
function/class/definition openers (extensions outside the listed branches
yield `False`). -/
def _is_code_block_start (line : String) (fileExt : String) : Bool :=
  let s := pyStripL line.toList
  if fileExt = "py" then
    -- `^(def|class|async\s+def)\s+\w+` or a docstring opener
    let defAlt := (matchKwSpace "def" s).bind (matchMany1 isWordChar)
    let classAlt := (matchKwSpace "class" s).bind (matchMany1 isWordChar)
    let asyncAlt := ((matchKwSpace "async" s).bind (matchKwSpace "def")).bind
      (matchMany1 isWordChar)
    defAlt.isSome || classAlt.isSome || asyncAlt.isSome ||
      dquote3.isPrefixOf s || squote3.isPrefixOf s
  else if fileExt = "js" || fileExt = "ts" || fileExt = "jsx" || fileExt = "tsx" then
    -- `^(function|class|export|const|let|var)\s+` or `^(async\s+)?function`
    (["function", "class", "export", "const", "let", "var"].any
      fun kw => (matchKwSpace kw s).isSome) ||
    (matchLit "function" s).isSome ||
    ((matchKwSpace "async" s).bind (matchLit "function")).isSome
  else if fileExt = "java" || fileExt = "c" || fileExt = "cpp" || fileExt = "cs"
      || fileExt = "go" || fileExt = "rs" then
    -- `^(public|private|protected|static|class|struct|func|fn)\s+`
    ["public", "private", "protected", "static", "class", "struct", "func", "fn"].any
      fun kw => (matchKwSpace kw s).isSome
  else if fileExt = "rb" then
    -- `^(def|class|module)\s+`
    ["def", "class", "module"].any fun kw => (matchKwSpace kw s).isSome
  else if fileExt = "sh" || fileExt = "bash" || fileExt = "zsh" then
    -- `^(\w+\s*\(\)|function\s+\w+)`
    ((((matchMany1 isWordChar s).bind (matchMany0 isPySpace)).bind
        (matchOne (· = '('))).bind (matchOne (· = ')'))).isSome ||
    ((matchKwSpace "function" s).bind (matchMany1 isWordChar)).isSome
  else
    false

/-- `sections._is_comment_block_start(line, file_ext)`: multi-line comment
or docstring openers, plus `#`-ruler comment banners for script
languages. -/
def _is_comment_block_start (line : String) (fileExt : String) : Bool :=
  let s := pyStripL line.toList
  "/*".toList.isPrefixOf s || dquote3.isPrefixOf s || squote3.isPrefixOf s ||
    (if fileExt = "py" || fileExt = "sh" || fileExt = "bash" || fileExt = "zsh"
        || fileExt = "rb" || fileExt = "r" then
      "# =".toList.isPrefixOf s || "#===".toList.isPrefixOf s ||
        "# ---".toList.isPrefixOf s || "#---".toList.isPrefixOf s
    else
      false)

/-- One extracted section: a 1-indexed inclusive line range.
(`section_date`, `section_header` and `section_type` are stored alongside
in the source but no verified claim mentions them; they are omitted.) -/
structure Section where
  lineStart : Nat
  lineEnd : Nat
  deriving Repr, DecidableEq

/-- The shared "fill in line_end" loop of `_extract_markdown_sections`,
`_extract_log_sections` and `_extract_code_sections`: given the 0-indexed
positions of the marker lines, each section starts at its marker
(1-indexed) and ends one line before the next marker, the last one at
`n` (= number of lines). -/
def chainSections (idxs : List Nat) (n : Nat) : List Section :=
  match idxs with
  | [] => []
  | i :: rest =>
    { lineStart := i + 1,
      lineEnd := match rest with | j :: _ => j | [] => n } :: chainSections rest n

/-- 0-indexed positions of the lines satisfying a marker predicate. -/
def markerIndices (isMarker : String → Bool) (lines : List String) : List Nat :=
  (List.range lines.length).filter fun i => isMarker (lines.getD i "")

/-- `sections._extract_markdown_sections` (line ranges): header lines
start sections; with no header the whole file is one section. -/
def _extract_markdown_sections (lines : List String) : List Section :=
  if (chainSections (markerIndices _is_markdown_header lines) lines.length).isEmpty
      && !lines.isEmpty then
    [{ lineStart := 1, lineEnd := lines.length }]
  else
    chainSections (markerIndices _is_markdown_header lines) lines.length

/-- The state-passing core of `_extract_text_sections`: `i` is the
0-indexed position of the next line, `cur` the 0-indexed start of the
open section (Python's `current_start`). -/
def textSectionsAux : List String → Nat → Option Nat → List Section
  | [], _, none => []
  | [], n, some s => [{ lineStart := s + 1, lineEnd := n }]
  | line :: rest, i, none =>
    if _is_blank_or_separator line then
      textSectionsAux rest (i + 1) none
    else
      textSectionsAux rest (i + 1) (some i)
  | line :: rest, i, some s =>
    if _is_blank_or_separator line then
      { lineStart := s + 1, lineEnd := i } :: textSectionsAux rest (i + 1) none
    else
      textSectionsAux rest (i + 1) (some s)

/-- `sections._extract_text_sections` (line ranges): a maximal run of
non-blank, non-separator lines is one section; a section closed by a
blank line ends on the line before it. -/
def _extract_text_sections (lines : List String) : List Section :=
  textSectionsAux lines 0 none

/-- `sections._extract_log_sections` (line ranges): timestamped lines
start sections; with none found, fall back to blank-line separation. -/
def _extract_log_sections (lines : List String) : List Section :=
  if (chainSections (markerIndices _is_log_timestamp lines) lines.length).isEmpty then
    _extract_text_sections lines
  else
    chainSections (markerIndices _is_log_timestamp lines) lines.length

/-- The per-line test of `_extract_code_sections`:
`_is_code_block_start(line, file_ext) or _is_comment_block_start(line, file_ext)`. -/
def isCodeOrCommentStart (fileExt : String) (line : String) : Bool :=
  _is_code_block_start line fileExt || _is_comment_block_start line fileExt

/-- `sections._extract_code_sections` (line ranges): definition or comment
openers start sections; with none found, fall back to blank-line
separation. -/
def _extract_code_sections (lines : List String) (fileExt : String) : List Section :=
  if (chainSections (markerIndices (isCodeOrCommentStart fileExt) lines) lines.length).isEmpty then
    _extract_text_sections lines
  else
    chainSections (markerIndices (isCodeOrCommentStart fileExt) lines) lines.length

/-- Extension sets of `sections.py`. -/
def MARKDOWN_EXTENSIONS : List String := ["md", "markdown", "mdx"]

def LOG_EXTENSIONS : List String := ["log"]

def CODE_EXTENSIONS : List String :=
  ["py", "js", "ts", "jsx", "tsx", "java", "c", "cpp", "h", "hpp",
   "cs", "go", "rs", "rb", "php", "swift", "kt", "scala", "r",
   "sh", "bash", "zsh", "fish", "ps1", "bat", "cmd"]

def TEXT_EXTENSIONS : List String := ["txt", "text"]

/-- `content.replace('\r\n', '\n').replace('\r', '\n')` over characters:
CRLF and bare CR both become LF. -/
def normalizeNewlinesL : List Char → List Char
  | [] => []
  | '\r' :: '\n' :: rest => '\n' :: normalizeNewlinesL rest
  | '\r' :: rest => '\n' :: normalizeNewlinesL rest
  | c :: rest => c :: normalizeNewlinesL rest

/-- Python `split('\n')`: the empty input yields one empty field. -/
def splitOnNl : List Char → List (List Char)
  | [] => [[]]
  | '\n' :: rest => [] :: splitOnNl rest
  | c :: rest =>
    match splitOnNl rest with
    | h :: t => (c :: h) :: t
    | [] => [[c]]

/-- `content.replace('\r\n', '\n').replace('\r', '\n').split('\n')`. -/
def splitLines (content : String) : List String :=
  (splitOnNl (normalizeNewlinesL content.toList)).map fun l => ⟨l⟩

/-- The `while lines and not lines[-1].strip(): lines.pop()` loop:
drop trailing whitespace-only lines. -/
def dropTrailingBlankLines (lines : List String) : List String :=
  (lines.reverse.dropWhile fun l => (pyStripL l.toList).isEmpty).reverse

/-- `file_type.lower().lstrip('.')` (ASCII lowering). -/
def normalizeFileExt (fileType : String) : String :=
  ⟨(fileType.toList.map Char.toLower).dropWhile (· = '.')⟩

/-- The strategy dispatch of `extract_sections` on the normalized
extension (`txt`/`text` and the default branch share the blank-line
strategy). -/
def dispatchSections (ext : String) (lines : List String) : List Section :=
  if MARKDOWN_EXTENSIONS.contains ext then _extract_markdown_sections lines
  else if LOG_EXTENSIONS.contains ext then _extract_log_sections lines
  else if CODE_EXTENSIONS.contains ext then _extract_code_sections lines ext
  else if TEXT_EXTENSIONS.contains ext then _extract_text_sections lines
  else _extract_text_sections lines

/-- `sections.extract_sections` (line ranges): empty input yields no
sections; otherwise normalize newlines, split, drop trailing blank lines,
and dispatch on the normalized extension.  The date post-processing step
touches only the omitted `section_type` field, never the ranges. -/
def extract_sections (content : String) (fileType : String) : List Section :=
  if content.toList.isEmpty then []
  else if (dropTrailingBlankLines (splitLines content)).isEmpty then []
  else dispatchSections (normalizeFileExt fileType) (dropTrailingBlankLines (splitLines content))

/-- `sec` covers 1-indexed line `k`. -/
def coversLine (sec : Section) (k : Nat) : Bool :=
  decide (sec.lineStart ≤ k) && decide (k ≤ sec.lineEnd)

/-- How many sections of `secs` cover line `k`. -/
def countCovering (secs : List Section) (k : Nat) : Nat :=
  (secs.filter (coversLine · k)).length

/-- Well-formedness of a section list over an `n`-line document: ranges
within bounds and pairwise ordered-disjoint. -/
def SecWf (secs : List Section) (n : Nat) : Prop :=
  (∀ sec ∈ secs, 1 ≤ sec.lineStart ∧ sec.lineStart ≤ sec.lineEnd ∧ sec.lineEnd ≤ n) ∧
  secs.Pairwise fun a b => a.lineEnd < b.lineStart

/-- The lines `extract_sections` actually segments: split on newlines,
trailing blank lines dropped. -/
def docLines (content : String) : List String :=
  dropTrailingBlankLines (splitLines content)

/-- The (amended) partition property of markdown extraction over the
segmented lines of a document: with no header, one section covers the
whole file; with headers, the lines from the first header to end of file
are covered by exactly one section each, no section covers a line before
the first header, sections start exactly at the header lines, consecutive
sections abut (each ends one line before the next starts), and the last
section ends at end of file. -/
def MarkdownPartitionSpec (content : String) : Prop :=
  (markerIndices _is_markdown_header (docLines content) = [] →
    extract_sections content "md" =
      [{ lineStart := 1, lineEnd := (docLines content).length }]) ∧
  (∀ i, (markerIndices _is_markdown_header (docLines content)).head? = some i →
    (∀ k, i + 1 ≤ k → k ≤ (docLines content).length →
      countCovering (extract_sections content "md") k = 1) ∧
    (∀ k, k ≤ i → countCovering (extract_sections content "md") k = 0) ∧
    (extract_sections content "md").map Section.lineStart =
      (markerIndices _is_markdown_header (docLines content)).map (· + 1)) ∧
  List.Chain' (fun a b => b.lineStart = a.lineEnd + 1) (extract_sections content "md") ∧
  (∀ sec, (extract_sections content "md").getLast? = some sec →
    sec.lineEnd = (docLines content).length)

/-! ## Search fusion (`search.py`, `search_combined`)

One hit of a search channel is modelled by its filepath and normalized
score (a `Rat`; the source holds Python floats — the fusion weights
`0.6`/`0.4`/`0.2` are modelled as the exact rationals they denote).  Each
channel's outcome is an `Except`: `error` models the caught exception of
the corresponding `try` block.  Snippet, line-number and date merging,
which no verified claim mentions, is not modelled. -/

/-- One per-file hit of a search channel (`FileSearchResult`, restricted
to the fields fusion scoring reads). -/
structure Hit where
  filepath : String
  score : Rat
  deriving Repr, DecidableEq

/-- A value of Python's `combined` dict: the stored result, the
provenance tags, and the two channel scores. -/
structure CombinedEntry where
  result : Hit
  sources : List String
  ftsScore : Rat
  rgScore : Rat
  deriving Repr, DecidableEq

/-- One entry of the final result list (filepath, fused score,
provenance). -/
structure FusedResult where
  filepath : String
  score : Rat
  sources : List String
  deriving Repr, DecidableEq

/-- Split on a separator character, Python `str.split(sep)` semantics. -/
def splitOnChar (sep : Char) : List Char → List (List Char)
  | [] => [[]]
  | c :: rest =>
    if c = sep then [] :: splitOnChar sep rest
    else
      match splitOnChar sep rest with
      | h :: t => (c :: h) :: t
      | [] => [[c]]

/-- The non-root components of `pathlib.Path(filepath)`: split on `/`,
dropping empty and `.` components. -/
def pathComponents (filepath : String) : List (List Char) :=
  (splitOnChar '/' filepath.toList).filter fun l => !l.isEmpty && !(l == ['.'])

/-- `pathlib.Path(filepath).parts`: a leading `/` becomes a root part. -/
def pathParts (filepath : String) : List (List Char) :=
  if filepath.toList.head? = some '/' then ['/'] :: pathComponents filepath
  else pathComponents filepath

/-- `pathlib.Path(filepath).name` (the last non-root component). -/
def pathName (filepath : String) : String :=
  ⟨((pathComponents filepath).getLast?).getD []⟩

/-- `search.get_dedup_key`: the last two path components joined
(`str(Path(*parts[-2:]))`), or `Path(filepath).name` with fewer than two
parts. -/
def get_dedup_key (filepath : String) : String :=
  if (pathParts filepath).length ≥ 2 then
    match (pathParts filepath).drop ((pathParts filepath).length - 2) with
    | [a, b] => if a = ['/'] then ⟨'/' :: b⟩ else ⟨a ++ '/' :: b⟩
    | _ => pathName filepath
  else pathName filepath

/-- Python dict assignment `m[k] = v`: replace in place, else append. -/
def dictSet (m : List (String × CombinedEntry)) (k : String) (v : CombinedEntry) :
    List (String × CombinedEntry) :=
  if (m.lookup k).isSome then
    m.map fun p => if p.1 = k then (p.1, v) else p
  else
    m ++ [(k, v)]

/-- The FTS pass of `search_combined`: `combined[key] = {result, ["fts"],
fts_score, 0.0}`. -/
def ftsStep (acc : List (String × CombinedEntry)) (r : Hit) :
    List (String × CombinedEntry) :=
  dictSet acc (get_dedup_key r.filepath)
    { result := r, sources := ["fts"], ftsScore := r.score, rgScore := 0 }

/-- Merging a ripgrep hit into an entry already found by FTS: append the
provenance tag and record the ripgrep score (the snippet/line merges
touch fields outside the model). -/
def mergeRg (e : CombinedEntry) (r : Hit) : CombinedEntry :=
  { e with sources := e.sources ++ ["ripgrep"], rgScore := r.score }

/-- The ripgrep pass of `search_combined`: merge into an existing entry,
else append a ripgrep-only entry. -/
def rgStep (acc : List (String × CombinedEntry)) (r : Hit) :
    List (String × CombinedEntry) :=
  if (acc.lookup (get_dedup_key r.filepath)).isSome then
    acc.map fun p => if p.1 = get_dedup_key r.filepath then (p.1, mergeRg p.2 r) else p
  else
    acc ++ [(get_dedup_key r.filepath,
      { result := r, sources := ["ripgrep"], ftsScore := 0, rgScore := r.score })]

/-- Both passes: FTS results first, then ripgrep results. -/
def buildCombined (ftsResults rgResults : List Hit) : List (String × CombinedEntry) :=
  List.foldl rgStep (List.foldl ftsStep [] ftsResults) rgResults

/-- `BOTH_SOURCES_BONUS = 0.2`. -/
def BOTH_SOURCES_BONUS : Rat := 1 / 5

/-- `FTS_WEIGHT = 0.6`. -/
def FTS_WEIGHT : Rat := 3 / 5

/-- `RIPGREP_WEIGHT = 0.4`. -/
def RIPGREP_WEIGHT : Rat := 2 / 5

/-- The fused score: `min(1.0, 0.6*fts + 0.4*rg + bonus)`, bonus `0.2`
exactly when the entry was hit by both channels. -/
def fusedScore (ftsScore rgScore : Rat) (both : Bool) : Rat :=
  min 1 (FTS_WEIGHT * ftsScore + RIPGREP_WEIGHT * rgScore +
    (if both then BOTH_SOURCES_BONUS else 0))

/-- The scoring pass over one `combined` entry. -/
def scoreEntry (p : String × CombinedEntry) : FusedResult :=
  { filepath := p.2.result.filepath,
    score := fusedScore p.2.ftsScore p.2.rgScore (decide (p.2.sources.length > 1)),
    sources := p.2.sources }

/-- Stable descending insertion by fused score (`sorted(...,
key=lambda item: -score)`). -/
def insertFused (x : FusedResult) : List FusedResult → List FusedResult
  | [] => [x]
  | y :: ys => if y.score < x.score then x :: y :: ys else y :: insertFused x ys

/-- Sort by fused score, highest first. -/
def sortFusedDesc (l : List FusedResult) : List FusedResult :=
  l.foldr insertFused []

/-- The `stats` dict of `search_combined`. -/
structure SearchStats where
  ftsCount : Nat
  rgCount : Nat
  combinedCount : Nat
  returnedCount : Nat
  ftsError : Option String
  rgError : Option String
  deriving Repr, DecidableEq

/-- The return value of `search_combined`. -/
structure CombinedOutput where
  stats : SearchStats
  results : List FusedResult
  deriving Repr, DecidableEq

/-- `search.search_combined` after the two channel calls: each channel
outcome is either its hit list or the caught error.  When both channels
fail the function returns empty results carrying both errors; otherwise
it deduplicates, merges, scores, sorts descending and truncates to
`limit`. -/
def search_combined (fts rg : Except String (List Hit)) (limit : Nat) :
    CombinedOutput :=
  match fts, rg with
  | .error e1, .error e2 =>
    { stats := { ftsCount := 0, rgCount := 0, combinedCount := 0,
                 returnedCount := 0, ftsError := some e1, rgError := some e2 },
      results := [] }
  | _, _ =>
    let ftsResults := (fts.toOption).getD []
    let rgResults := (rg.toOption).getD []
    let combined := buildCombined ftsResults rgResults
    let finalResults := (sortFusedDesc (combined.map scoreEntry)).take limit
    { stats := { ftsCount := ftsResults.length, rgCount := rgResults.length,
                 combinedCount := combined.length,
                 returnedCount := finalResults.length,
                 ftsError := match fts with | .error e => some e | _ => none,
                 rgError := match rg with | .error e => some e | _ => none },
      results := finalResults }

/-! ## Similarity engine (`similarity.py`)

TF-IDF vectors are association lists `String → Rat`.  The two irrational
primitives, `math.log` (inside `_compute_idf`) and `math.sqrt` (inside
`_normalize_vector`), are passed as parameters `log`/`sqrtQ`; theorems
assume of them only facts true of the real functions (`log x ≥ 0` for
`x ≥ 1`, `sqrt x > 0` for `x > 0`).  The display rounding
`round(sim, 4)` is not modelled (no claim depends on it). -/

/-- A sparse vector: term to weight. -/
abbrev Vec : Type := List (String × Rat)

/-- Whitespace-run split, Python `str.split()` semantics (no empty
fields). -/
def splitWsAux : List Char → List Char → List (List Char)
  | [], acc => if acc.isEmpty then [] else [acc.reverse]
  | c :: rest, acc =>
    if isPySpace c then
      if acc.isEmpty then splitWsAux rest [] else acc.reverse :: splitWsAux rest []
    else splitWsAux rest (c :: acc)

/-- Python `text.split()`. -/
def pySplitWhitespace (cs : List Char) : List (List Char) :=
  splitWsAux cs []

/-- The stop-word set of `_tokenize`. -/
def STOP_WORDS : List String :=
  ["a", "an", "and", "are", "as", "at", "be", "by", "for", "from",
   "has", "he", "in", "is", "it", "its", "of", "on", "or", "that",
   "the", "to", "was", "were", "will", "with", "this", "but", "they",
   "have", "had", "what", "when", "where", "who", "which", "why", "how",
   "all", "each", "every", "both", "few", "more", "most", "other",
   "some", "such", "no", "nor", "not", "only", "own", "same", "so",
   "than", "too", "very", "can", "just", "should", "now", "also"]

/-- `similarity._tokenize`: lowercase, replace non-alphanumerics by
spaces, split on whitespace, keep words of length ≥ 2 outside the stop
set. -/
def _tokenize (text : String) : List String :=
  if text.toList.isEmpty then []
  else
    let cleaned := (text.toList.map Char.toLower).map fun c =>
      if c.isAlphanum || isPySpace c then c else ' '
    ((pySplitWhitespace cleaned).map fun w => (⟨w⟩ : String)).filter fun w =>
      2 ≤ w.toList.length && !(STOP_WORDS.contains w)

/-- First-occurrence deduplication with a seen-set accumulator. -/
def firstDedupAux (seen : List String) : List String → List String
  | [] => []
  | x :: xs =>
    if seen.contains x then firstDedupAux seen xs
    else x :: firstDedupAux (x :: seen) xs

/-- First-occurrence deduplication (the key order of a Python
`Counter`/dict built by insertion). -/
def firstDedup (l : List String) : List String :=
  firstDedupAux [] l

/-- `similarity._compute_tf`: term ↦ count/total. -/
def _compute_tf (tokens : List String) : Vec :=
  if tokens.isEmpty then []
  else (firstDedup tokens).map fun t =>
    (t, ((tokens.count t : Nat) : Rat) / (tokens.length : Rat))

/-- Number of documents containing a term. -/
def docFreq (documents : List (List String)) (t : String) : Nat :=
  (documents.filter fun d => d.contains t).length

/-- `similarity._compute_idf`: term ↦ `log(total_docs/df) + 1` over every
term of the corpus. -/
def _compute_idf (log : Rat → Rat) (documents : List (List String)) : Vec :=
  if documents.isEmpty then []
  else (firstDedup (documents.map firstDedup).flatten).map fun t =>
    (t, log ((documents.length : Rat) / (docFreq documents t : Rat)) + 1)

/-- `similarity._compute_tfidf_vector`: `tf * idf.get(term, 1.0)`. -/
def _compute_tfidf_vector (tf idf : Vec) : Vec :=
  tf.map fun p => (p.1, p.2 * ((idf.lookup p.1).getD 1))

/-- Sum of squared weights (the square of the L2 magnitude). -/
def vecSumSq (v : Vec) : Rat :=
  (v.map fun p => p.2 * p.2).sum

/-- `similarity._normalize_vector`: divide by the magnitude
(`sqrtQ` of the squared sum); empty or zero-magnitude vectors become
empty. -/
def _normalize_vector (sqrtQ : Rat → Rat) (v : Vec) : Vec :=
  if v.isEmpty then []
  else if sqrtQ (vecSumSq v) = 0 then []
  else v.map fun p => (p.1, p.2 / sqrtQ (vecSumSq v))

/-- `similarity._cosine_similarity`: dot product over shared terms
(the source's `if not common_terms: return 0.0` equals the empty sum). -/
def _cosine_similarity (vec1 vec2 : Vec) : Rat :=
  if vec1.isEmpty || vec2.isEmpty then 0
  else (vec1.filterMap fun p => (vec2.lookup p.1).map fun w => p.2 * w).sum

/-- The weight a sparse vector assigns to a term (0 when absent). -/
def vecVal (v : Vec) (k : String) : Rat :=
  ((List.lookup k v).getD 0)

/-- `filepath.endswith(file_path)` of the resolution loop. -/
def endsWithStr (s suff : String) : Bool :=
  suff.toList.isSuffixOf s.toList

/-- `filepath_variants`: the path itself, plus its basename when the path
is absolute. -/
def filepathVariants (filepath : String) : List String :=
  if filepath.toList.head? = some '/' then [filepath, pathName filepath]
  else [filepath]

/-- The first resolution loop's test: exact path, variant, or
path-suffix match. -/
def matchesTargetLoop1 (filepath p : String) : Bool :=
  p = filepath || (filepathVariants filepath).contains p || endsWithStr filepath p

/-- The second resolution loop's test: basename equality. -/
def matchesName (filepath p : String) : Bool :=
  pathName p == pathName filepath

/-- Target resolution of `cmd_related`: the first loop keeps the *last*
match (plain reassignment), the fallback loop the first basename match. -/
def findTarget (documents : List (String × List String)) (filepath : String) :
    Option (String × List String) :=
  match (documents.reverse).find? (fun d => matchesTargetLoop1 filepath d.1) with
  | some d => some d
  | none => documents.find? fun d => matchesName filepath d.1

/-- The outcomes of `cmd_related`: the early "No files in index" return,
the `FileNotIndexedError` raise, the corpus-of-one and empty-vector
returns (each carrying an explanatory message in the source), and the
similar-list result. -/
inductive RelatedOutcome where
  | dbEmpty : RelatedOutcome
  | notIndexed : RelatedOutcome
  | singleFile (target : String) : RelatedOutcome
  | emptyVector (target : String) : RelatedOutcome
  | ok (target : String) (similar : List (String × Rat)) : RelatedOutcome
  deriving Repr, DecidableEq

/-- The tokenized corpus (`documents` of `cmd_related`). -/
def relatedDocuments (rows : List (String × String)) : List (String × List String) :=
  rows.map fun r => (r.1, _tokenize r.2)

/-- The normalized TF-IDF vector of each document (`vectors`). -/
def relatedVectors (log sqrtQ : Rat → Rat) (documents : List (String × List String)) :
    List (String × Vec) :=
  documents.map fun d =>
    (d.1, _normalize_vector sqrtQ
      (_compute_tfidf_vector (_compute_tf d.2) (_compute_idf log (documents.map Prod.snd))))

/-- Descending insertion by similarity. -/
def insertSim (x : String × Rat) : List (String × Rat) → List (String × Rat)
  | [] => [x]
  | y :: ys => if y.2 < x.2 then x :: y :: ys else y :: insertSim x ys

/-- `similarities.sort(key=-similarity)`. -/
def sortSimsDesc (l : List (String × Rat)) : List (String × Rat) :=
  l.foldr insertSim []

/-- The similarity list: every non-target document with positive cosine
similarity to the target, sorted descending, truncated to `top`. -/
def similarList (vectors : List (String × Vec)) (documents : List (String × List String))
    (targetVector : Vec) (targetPath : String) (top : Nat) : List (String × Rat) :=
  (sortSimsDesc (documents.filterMap fun d =>
    if d.1 = targetPath then none
    else if 0 < _cosine_similarity targetVector ((vectors.lookup d.1).getD []) then
      some (d.1, _cosine_similarity targetVector ((vectors.lookup d.1).getD []))
    else none)).take top

/-- `similarity.cmd_related` over the rows `(file_path, content)` read
from the store (`file_path` is UNIQUE in the schema). -/
def cmd_related (log sqrtQ : Rat → Rat) (rows : List (String × String))
    (filepath : String) (top : Nat) : RelatedOutcome :=
  if rows.isEmpty then .dbEmpty
  else
    match findTarget (relatedDocuments rows) filepath with
    | none => .notIndexed
    | some target =>
      if (relatedDocuments rows).length < 2 then .singleFile target.1
      else if (((relatedVectors log sqrtQ (relatedDocuments rows)).lookup target.1).getD
          []).isEmpty then
        .emptyVector target.1
      else
        .ok target.1
          (similarList (relatedVectors log sqrtQ (relatedDocuments rows))
            (relatedDocuments rows)
            (((relatedVectors log sqrtQ (relatedDocuments rows)).lookup target.1).getD [])
            target.1 top)

/-- No result of a related-files query names the target itself. -/
def SelfExcluded (out : RelatedOutcome) : Prop :=
  match out with
  | .ok t similar => t ∉ similar.map Prod.fst
  | _ => True

/-! ## Duplicate detection (`similarity.cmd_duplicates`) -/

/-- One row of the duplicates query: path, fingerprint, content.  The SQL
`SUBSTR(content, 1, 500)` becomes `content.toList.take 500`. -/
structure DupRow where
  file_path : String
  content_hash : String
  content : String
  deriving Repr, DecidableEq

/-- The first-500-character content fix the near-duplicate scan
compares. -/
def prefix500 (r : DupRow) : List Char :=
  r.content.toList.take 500

/-- The paths holding fingerprint `h`, in row order. -/
def groupPaths (rows : List DupRow) (h : String) : List String :=
  (rows.filter fun r => r.content_hash == h).map (·.file_path)

/-- The `hash_groups` dict: fingerprints in first-occurrence order, each
with its paths in row order. -/
def hashGroups (rows : List DupRow) : List (String × List String) :=
  (firstDedup (rows.map (·.content_hash))).map fun h => (h, groupPaths rows h)

/-- Code-point lexicographic comparison (Python string `<=`). -/
def charListLe : List Char → List Char → Bool
  | [], _ => true
  | _ :: _, [] => false
  | a :: as2, b :: bs =>
    if a.toNat < b.toNat then true
    else if b.toNat < a.toNat then false
    else charListLe as2 bs

/-- Python string comparison. -/
def strLe (s t : String) : Bool :=
  charListLe s.toList t.toList

/-- Ascending insertion for `sorted(paths)`. -/
def insertStr (x : String) : List String → List String
  | [] => [x]
  | y :: ys => if strLe x y then x :: y :: ys else y :: insertStr x ys

/-- Python `sorted` on strings. -/
def sortStrings (l : List String) : List String :=
  l.foldr insertStr []

/-- One exact-duplicate group. -/
structure DupGroup where
  content_hash : String
  files : List String
  count : Nat
  deriving Repr, DecidableEq

/-- The exact-duplicate groups: fingerprint groups with more than one
file. -/
def exactDuplicates (rows : List DupRow) : List DupGroup :=
  ((hashGroups rows).filter fun g => 1 < g.2.length).map fun g =>
    { content_hash := g.1, files := sortStrings g.2, count := g.2.length }

/-- `exact_paths`: every path inside some exact-duplicate group. -/
def exactPaths (rows : List DupRow) : List String :=
  (((hashGroups rows).filter fun g => 1 < g.2.length).map (·.2)).flatten

/-- Whitespace collapse `' '.join(text.split())`. -/
def wsCollapse (cs : List Char) : List Char :=
  List.intercalate [' '] (pySplitWhitespace cs)

/-- Positional character matches over the shorter length. -/
def posMatches : List Char → List Char → Nat
  | a :: as2, b :: bs => (if a = b then 1 else 0) + posMatches as2 bs
  | _, _ => 0

/-- `similarity._compute_prefix_similarity`: whitespace-collapse both
texts, count positional character matches, divide by the longer length;
two empty texts (before or after collapsing) score 1, one empty text
scores 0. -/
def _compute_prefix_similarity (t1 t2 : List Char) : Rat :=
  if t1.isEmpty && t2.isEmpty then 1
  else if t1.isEmpty || t2.isEmpty then 0
  else
    if (wsCollapse t1).isEmpty && (wsCollapse t2).isEmpty then 1
    else if (wsCollapse t1).isEmpty || (wsCollapse t2).isEmpty then 0
    else (posMatches (wsCollapse t1) (wsCollapse t2) : Rat) /
      ((max (wsCollapse t1).length (wsCollapse t2).length : Nat) : Rat)

/-- The `i < j` iteration order of the near-duplicate double loop. -/
def allPairs {α : Type} : List α → List (α × α)
  | [] => []
  | r :: rest => (rest.map fun r2 => (r, r2)) ++ allPairs rest

/-- One near-duplicate pair. -/
structure NearDup where
  files : List String
  similarity : Rat
  deriving Repr, DecidableEq

/-- The body of the pair loop: skip exact-duplicate members and
equal-fingerprint pairs, keep pairs scoring at least 0.80.  (The source
additionally tracks a `processed_pairs` set keyed by the unordered path
pair; with `file_path` UNIQUE — the files table schema — no unordered
pair occurs twice in the `i < j` iteration, so the guard never fires.) -/
def nearCandidate (exactP : List String) (p : DupRow × DupRow) : Option NearDup :=
  if exactP.contains p.1.file_path || exactP.contains p.2.file_path then none
  else if p.1.content_hash == p.2.content_hash then none
  else if (8 : Rat) / 10 ≤ _compute_prefix_similarity (prefix500 p.1) (prefix500 p.2) then
    some { files := [p.1.file_path, p.2.file_path],
           similarity := _compute_prefix_similarity (prefix500 p.1) (prefix500 p.2) }
  else none

/-- Descending insertion by similarity for near-duplicate pairs. -/
def insertNear (x : NearDup) : List NearDup → List NearDup
  | [] => [x]
  | y :: ys => if y.similarity < x.similarity then x :: y :: ys else y :: insertNear x ys

/-- `near_duplicates.sort(key=-similarity)`. -/
def sortNearDesc (l : List NearDup) : List NearDup :=
  l.foldr insertNear []

/-- The near-duplicate pair list of `cmd_duplicates`. -/
def nearDuplicates (rows : List DupRow) : List NearDup :=
  sortNearDesc ((allPairs rows).filterMap (nearCandidate (exactPaths rows)))

/-- The result of `similarity.cmd_duplicates` (stats fields are simple
lengths of these lists). -/
structure DuplicatesResult where
  exact_duplicates : List DupGroup
  near_duplicates : List NearDup
  deriving Repr, DecidableEq

/-- `similarity.cmd_duplicates` over the rows read from the store. -/
def cmd_duplicates (rows : List DupRow) : DuplicatesResult :=
  { exact_duplicates := exactDuplicates rows,
    near_duplicates := nearDuplicates rows }

/-! ## Indexing pipeline (`index.index_files`) -/

/-- One file met by the scan loop of `index_files` (after exclusion
filtering): `hash` is the fingerprint computed at scan time (`none`
models a file whose hashing raised, which the loop records in `errors`
and leaves out of `current_files`); `content` is what
`_read_file_content` returns when the file is re-read inside the
transaction (`none` models a decode failure there). -/
structure ScanFile where
  path : String
  hash : Option String
  content : Option String
  deriving Repr, DecidableEq

/-- `current_files`: the relative-path-to-fingerprint dict built by the
scan loop; files whose hashing raised are absent. -/
def current_files (scan : List ScanFile) : List (String × String) :=
  scan.filterMap fun f => f.hash.map fun h => (f.path, h)

/-- The scan-phase error list: the files whose hashing raised. -/
def scanErrors (scan : List ScanFile) : List String :=
  (scan.filter fun f => f.hash.isNone).map (·.path)

/-- `to_add = current_set - indexed_set` (`indexed` is the
path-to-fingerprint map `get_indexed_files` reads from the store). -/
def to_add (indexed : List (String × String)) (scan : List ScanFile) : List String :=
  ((current_files scan).map (·.1)).filter fun p => !((indexed.map (·.1)).contains p)

/-- `to_delete = indexed_set - current_set`. -/
def to_delete (indexed : List (String × String)) (scan : List ScanFile) : List String :=
  (indexed.map (·.1)).filter fun p => !(((current_files scan).map (·.1)).contains p)

/-- `to_check = indexed_set & current_set`. -/
def to_check (indexed : List (String × String)) (scan : List ScanFile) : List String :=
  (indexed.map (·.1)).filter fun p => ((current_files scan).map (·.1)).contains p

/-- `to_update`: the intersection entries whose fingerprints differ
(`current_files[p] != indexed_files[p]`). -/
def to_update (indexed : List (String × String)) (scan : List ScanFile) : List String :=
  (to_check indexed scan).filter fun p =>
    decide ((current_files scan).lookup p ≠ indexed.lookup p)

/-- The intersection entries whose fingerprints agree; the code only
keeps their count (`unchanged = len(to_check) - len(to_update)`). -/
def unchangedKeys (indexed : List (String × String)) (scan : List ScanFile) : List String :=
  (to_check indexed scan).filter fun p =>
    decide ((current_files scan).lookup p = indexed.lookup p)

/-- `files_to_insert = to_add | to_update` (the two are disjoint, so the
union is modelled as concatenation; Python set iteration order is
arbitrary, a list order is fixed here). -/
def files_to_insert (indexed : List (String × String)) (scan : List ScanFile) :
    List String :=
  to_add indexed scan ++ to_update indexed scan

/-- One row of the `files` table (the timestamp and size columns play no
part in any claim and are omitted). -/
structure FileRow where
  file_id : Nat
  file_path : String
  filename : String
  file_type : String
  content : String
  content_hash : String
  deriving Repr, DecidableEq

/-- One row of the `file_sections` table (date, header and type columns
omitted as in `Section`). -/
structure SectionRow where
  file_id : Nat
  lineStart : Nat
  lineEnd : Nat
  deriving Repr, DecidableEq

/-- The persisted SQLite store: `files`, the `files_fts` index rows
(rowid and content; the mirrored path and filename columns are
determined by the `files` row), `file_sections`, and the singleton
`manifest` (total files and aggregate fingerprint; the timestamp is
omitted).  `next_id` models the autoincrement rowid counter. -/
structure Store where
  files : List FileRow
  files_fts : List (Nat × String)
  file_sections : List SectionRow
  manifest : Option (Nat × String)
  next_id : Nat
  deriving Repr, DecidableEq

/-- `get_indexed_files`: the path-to-fingerprint map read from the
store. -/
def get_indexed_files (st : Store) : List (String × String) :=
  st.files.map fun r => (r.file_path, r.content_hash)

/-- The last index of a dot in a character list. -/
def rfindDotAux : List Char → Nat → Option Nat → Option Nat
  | [], _, acc => acc
  | c :: rest, i, acc => rfindDotAux rest (i + 1) (if c = '.' then some i else acc)

/-- `pathlib.Path(p).suffix`: the final extension of the last component,
present only when the last dot is neither first nor last in the name. -/
def pathSuffix (p : String) : String :=
  let name := (pathName p).toList
  match rfindDotAux name 0 none with
  | some i => if 0 < i && i + 1 < name.length then ⟨name.drop i⟩ else ""
  | none => ""

/-- The extension-to-type dict of `_get_file_type`. -/
def TYPE_MAP : List (String × String) :=
  [(".md", "markdown"), (".txt", "text"), (".py", "python"), (".sh", "shell"),
   (".json", "json"), (".yaml", "yaml"), (".yml", "yaml"), (".html", "html"),
   (".css", "css"), (".js", "javascript"), (".ts", "typescript")]

/-- `index._get_file_type`: map the lowercased suffix, defaulting to
`unknown`. -/
def _get_file_type (path : String) : String :=
  (TYPE_MAP.lookup ⟨(pathSuffix path).toList.map Char.toLower⟩).getD "unknown"

/-- One iteration of the deletion loops: look up the `file_id` for the
path, delete the FTS row for that id when the row exists (and, in the
`to_update` loop, its sections), then delete the `files` row.  The
source issues these as SQL statements; no statement here can fail. -/
def txDeleteFile (removeSections : Bool) (st : Store) (path : String) : Store :=
  match st.files.find? fun r => r.file_path == path with
  | some row =>
    { st with
      files := st.files.filter fun r => !(r.file_path == path),
      files_fts := st.files_fts.filter fun q => !(q.1 == row.file_id),
      file_sections :=
        if removeSections then
          st.file_sections.filter fun s => !(s.file_id == row.file_id)
        else st.file_sections }
  | none => { st with files := st.files.filter fun r => !(r.file_path == path) }

/-- One insertion of the `files_to_insert` loop: insert the `files` row
(the `file_path UNIQUE` constraint can raise `IntegrityError`), insert
the FTS row at the fresh rowid (a duplicate rowid also raises), and
insert the extracted sections.  The source runs the statements in this
order inside the open transaction; since a failure rolls the whole
transaction back, checking the constraints before mutating is
observationally the same. -/
def insertFileTx (st : Store) (path content hash : String) : Except String Store :=
  if (st.files.map (·.file_path)).contains path then
    Except.error "UNIQUE constraint failed: files.file_path"
  else if (st.files_fts.map (·.1)).contains st.next_id then
    Except.error "UNIQUE constraint failed: files_fts.rowid"
  else
    Except.ok
      { files := st.files ++
          [⟨st.next_id, path, pathName path, _get_file_type path, content, hash⟩],
        files_fts := st.files_fts ++ [(st.next_id, content)],
        file_sections := st.file_sections ++
          (extract_sections content (_get_file_type path)).map
            fun s => ⟨st.next_id, s.lineStart, s.lineEnd⟩,
        manifest := st.manifest,
        next_id := st.next_id + 1 }

/-- The `files_to_insert` loop: re-read each file (a `None` content is
recorded as an error and skipped with `continue`), then insert it; the
first database failure aborts the loop by raising. -/
def insertLoop (scan : List ScanFile) : Store → List String → Except String Store
  | st, [] => Except.ok st
  | st, p :: ps =>
    match scan.find? fun f => f.path == p with
    | some f =>
      match f.content, (current_files scan).lookup p with
      | some content, some h =>
        match insertFileTx st p content h with
        | Except.ok st2 => insertLoop scan st2 ps
        | Except.error e => Except.error e
      | _, _ => insertLoop scan st ps
    | none => insertLoop scan st ps

/-- The manifest upsert: total file count and the aggregate fingerprint
`hashFn` of the sorted per-file fingerprints joined (the cryptographic
hash is a parameter, like `log` for TF-IDF). -/
def manifestUpdate (hashFn : String → String) (scan : List ScanFile) (st : Store) :
    Store :=
  { st with
    manifest := some ((current_files scan).length,
      hashFn (String.join (sortStrings ((current_files scan).map (·.2))))) }

/-- The transaction body of `index_files`, from `BEGIN IMMEDIATE` to
`COMMIT`: delete removed files, delete changed files (with their
sections), insert new and changed files, upsert the manifest.  An
`Except.error` models an exception escaping any statement. -/
def txBody (hashFn : String → String) (st : Store) (scan : List ScanFile) :
    Except String Store :=
  let indexed := get_indexed_files st
  let st1 := (to_delete indexed scan).foldl (txDeleteFile false) st
  let st2 := (to_update indexed scan).foldl (txDeleteFile true) st1
  match insertLoop scan st2 (files_to_insert indexed scan) with
  | Except.error e => Except.error e
  | Except.ok st3 => Except.ok (manifestUpdate hashFn scan st3)

/-- `index_files`, transaction part: on success the committed store is
the transaction result; on any exception the handler issues `ROLLBACK`
(the engine restores the pre-transaction state, which is the modelled
semantics of the statement) and re-raises a `RuntimeError` wrapping the
cause. -/
def index_files_model (hashFn : String → String) (st : Store) (scan : List ScanFile) :
    Store × Option String :=
  match txBody hashFn st scan with
  | Except.ok st2 => (st2, none)
  | Except.error e => (st, some ("Indexing failed, rolled back: " ++ e))

example : _extract_markdown_sections ["# A", "x", "## B"] =
    [⟨1, 2⟩, ⟨3, 3⟩] := by decide
example : _extract_markdown_sections ["pre", "# H", "x"] = [⟨2, 3⟩] := by decide
example : _extract_markdown_sections ["a", "b"] = [⟨1, 2⟩] := by decide
example : _extract_text_sections ["a", "", "b", "c"] = [⟨1, 1⟩, ⟨3, 4⟩] := by decide
example : _extract_text_sections ["hello", "---"] = [⟨1, 1⟩] := by decide
example : extract_sections "hello\n---" "txt" = [⟨1, 1⟩] := by decide
example : extract_sections "# My Journal\n\n## January 2024\n\nx\n" "md" =
    [⟨1, 2⟩, ⟨3, 5⟩] := by decide
theorem chainSections_nil (n : Nat) : chainSections [] n = [] := rfl

theorem chainSections_singleton (i n : Nat) :
    chainSections [i] n = [{ lineStart := i + 1, lineEnd := n }] := rfl

theorem chainSections_cons_cons (i j : Nat) (rest2 : List Nat) (n : Nat) :
    chainSections (i :: j :: rest2) n =
      { lineStart := i + 1, lineEnd := j } :: chainSections (j :: rest2) n := rfl

theorem chainSections_map_lineStart (idxs : List Nat) (n : Nat) :
    (chainSections idxs n).map Section.lineStart = idxs.map (· + 1) := by
  induction idxs with
  | nil => rfl
  | cons i rest ih =>
    cases rest with
    | nil => rfl
    | cons j rest2 =>
      rw [chainSections_cons_cons, List.map_cons, ih]
      rfl

theorem chainSections_start_mem (idxs : List Nat) (n : Nat) :
    ∀ sec ∈ chainSections idxs n, ∃ m ∈ idxs, sec.lineStart = m + 1 := by
  induction idxs with
  | nil => simp [chainSections_nil]
  | cons i rest ih =>
    intro sec hsec
    cases rest with
    | nil =>
      rw [chainSections_singleton, List.mem_singleton] at hsec
      exact ⟨i, by simp, by rw [hsec]⟩
    | cons j rest2 =>
      rw [chainSections_cons_cons, List.mem_cons] at hsec
      rcases hsec with rfl | hsec
      · exact ⟨i, by simp, rfl⟩
      · obtain ⟨m, hm, hs⟩ := ih sec hsec
        exact ⟨m, List.mem_cons_of_mem _ hm, hs⟩

theorem chainSections_getLast_lineEnd (idxs : List Nat) (n : Nat) :
    ∀ sec, (chainSections idxs n).getLast? = some sec → sec.lineEnd = n := by
  induction idxs with
  | nil => simp [chainSections_nil]
  | cons i rest ih =>
    intro sec h
    cases rest with
    | nil =>
      rw [chainSections_singleton] at h
      simp only [List.getLast?_singleton, Option.some_inj] at h
      rw [← h]
    | cons j rest2 =>
      rw [chainSections_cons_cons] at h
      cases hy : chainSections (j :: rest2) n with
      | nil =>
        cases rest2 <;> simp [chainSections_singleton, chainSections_cons_cons] at hy
      | cons y ys =>
        rw [hy, List.getLast?_cons_cons, ← hy] at h
        exact ih sec h

theorem chainSections_wf (n : Nat) :
    ∀ idxs : List Nat, idxs.Pairwise (· < ·) → (∀ j ∈ idxs, j < n) →
      SecWf (chainSections idxs n) n := by
  intro idxs
  induction idxs with
  | nil => intro _ _; exact ⟨by simp [chainSections_nil], by simp [chainSections_nil]⟩
  | cons i rest ih =>
    intro hpw hbound
    have hpw' := (List.pairwise_cons.mp hpw).2
    have hlt := (List.pairwise_cons.mp hpw).1
    have hbound' : ∀ j ∈ rest, j < n := fun j hj => hbound j (List.mem_cons_of_mem _ hj)
    obtain ⟨ihB, ihP⟩ := ih hpw' hbound'
    constructor
    · intro sec hsec
      cases rest with
      | nil =>
        rw [chainSections_singleton, List.mem_singleton] at hsec
        subst hsec
        have := hbound i (by simp)
        refine ⟨Nat.le_add_left 1 i, ?_, Nat.le_refl n⟩
        show i + 1 ≤ n
        omega
      | cons j rest2 =>
        rw [chainSections_cons_cons, List.mem_cons] at hsec
        rcases hsec with rfl | hsec
        · have hij : i < j := hlt j (by simp)
          have hj : j < n := hbound j (by simp)
          refine ⟨Nat.le_add_left 1 i, ?_, ?_⟩
          · show i + 1 ≤ j; omega
          · show j ≤ n; omega
        · exact ihB sec hsec
    · cases rest with
      | nil => simp [chainSections_singleton]
      | cons j rest2 =>
        have hij : i < j := hlt j (by simp)
        rw [chainSections_cons_cons]
        refine List.pairwise_cons.mpr ⟨?_, ihP⟩
        intro sec hsec
        obtain ⟨m, hm, hs⟩ := chainSections_start_mem _ n sec hsec
        have : j ≤ m := by
          rcases List.mem_cons.mp hm with rfl | hm2
          · exact Nat.le_refl m
          · exact Nat.le_of_lt (((List.pairwise_cons.mp hpw').1) m hm2)
        show ({ lineStart := i + 1, lineEnd := j } : Section).lineEnd < sec.lineStart
        rw [hs]
        show j < m + 1
        omega

theorem countCovering_nil (k : Nat) : countCovering [] k = 0 := rfl

theorem countCovering_cons (x : Section) (l : List Section) (k : Nat) :
    countCovering (x :: l) k =
      (if coversLine x k = true then 1 else 0) + countCovering l k := by
  simp only [countCovering, List.filter_cons]
  split <;> simp [Nat.add_comm]

theorem chainSections_cover (n : Nat) :
    ∀ (idxs : List Nat) (i : Nat),
      idxs.Pairwise (· < ·) → (∀ j ∈ idxs, j < n) → idxs.head? = some i →
      (∀ k, i + 1 ≤ k → k ≤ n → countCovering (chainSections idxs n) k = 1) ∧
      (∀ k, k ≤ i → countCovering (chainSections idxs n) k = 0) := by
  intro idxs
  induction idxs with
  | nil => intro i _ _ h; cases h
  | cons i' rest ih =>
    intro i hpw hbound hhead
    have hi : i = i' := by simpa using hhead.symm
    subst hi
    have hpw' := (List.pairwise_cons.mp hpw).2
    have hlt := (List.pairwise_cons.mp hpw).1
    have hbound' : ∀ j ∈ rest, j < n := fun j hj => hbound j (List.mem_cons_of_mem _ hj)
    cases rest with
    | nil =>
      constructor
      · intro k hk1 hk2
        rw [chainSections_singleton, countCovering_cons, countCovering_nil]
        have hcv : coversLine { lineStart := i + 1, lineEnd := n } k = true := by
          simp only [coversLine, Bool.and_eq_true, decide_eq_true_eq]
          exact ⟨hk1, hk2⟩
        rw [hcv]
        rfl
      · intro k hk
        rw [chainSections_singleton, countCovering_cons, countCovering_nil]
        have hcv : coversLine { lineStart := i + 1, lineEnd := n } k = false := by
          simp only [coversLine, Bool.and_eq_false_iff, decide_eq_false_iff_not]
          left
          omega
        rw [hcv]
        rfl
    | cons j rest2 =>
      obtain ⟨covIH, zeroIH⟩ := ih j hpw' hbound' rfl
      have hij : i < j := hlt j (by simp)
      constructor
      · intro k hk1 hk2
        rw [chainSections_cons_cons, countCovering_cons]
        by_cases hkj : k ≤ j
        · have hcv : coversLine { lineStart := i + 1, lineEnd := j } k = true := by
            simp only [coversLine, Bool.and_eq_true, decide_eq_true_eq]
            exact ⟨hk1, hkj⟩
          rw [hcv, zeroIH k hkj]
          rfl
        · have hcv : coversLine { lineStart := i + 1, lineEnd := j } k = false := by
            simp only [coversLine, Bool.and_eq_false_iff, decide_eq_false_iff_not]
            right
            omega
          rw [hcv, covIH k (by omega) hk2]
          rfl
      · intro k hk
        rw [chainSections_cons_cons, countCovering_cons]
        have hcv : coversLine { lineStart := i + 1, lineEnd := j } k = false := by
          simp only [coversLine, Bool.and_eq_false_iff, decide_eq_false_iff_not]
          left
          omega
        rw [hcv, zeroIH k (by omega)]
        rfl

theorem chainSections_chain' (idxs : List Nat) (n : Nat) :
    List.Chain' (fun a b => b.lineStart = a.lineEnd + 1) (chainSections idxs n) := by
  induction idxs with
  | nil => simp [chainSections_nil]
  | cons i rest ih =>
    cases rest with
    | nil => simp [chainSections_singleton]
    | cons j rest2 =>
      rw [chainSections_cons_cons]
      cases rest2 with
      | nil =>
        rw [chainSections_singleton]
        exact List.chain'_cons.mpr ⟨rfl, List.chain'_singleton _⟩
      | cons m rest3 =>
        rw [chainSections_cons_cons]
        refine List.chain'_cons.mpr ⟨rfl, ?_⟩
        rw [← chainSections_cons_cons]
        exact ih

theorem textAux_nil_none (i : Nat) : textSectionsAux [] i none = [] := rfl

theorem textAux_nil_some (i s : Nat) :
    textSectionsAux [] i (some s) = [{ lineStart := s + 1, lineEnd := i }] := rfl

theorem textAux_cons_none_blank (line : String) (rest : List String) (i : Nat)
    (h : _is_blank_or_separator line = true) :
    textSectionsAux (line :: rest) i none = textSectionsAux rest (i + 1) none := by
  simp [textSectionsAux, h]

theorem textAux_cons_none_text (line : String) (rest : List String) (i : Nat)
    (h : _is_blank_or_separator line = false) :
    textSectionsAux (line :: rest) i none = textSectionsAux rest (i + 1) (some i) := by
  simp [textSectionsAux, h]

theorem textAux_cons_some_blank (line : String) (rest : List String) (i s : Nat)
    (h : _is_blank_or_separator line = true) :
    textSectionsAux (line :: rest) i (some s) =
      { lineStart := s + 1, lineEnd := i } :: textSectionsAux rest (i + 1) none := by
  simp [textSectionsAux, h]

theorem textAux_cons_some_text (line : String) (rest : List String) (i s : Nat)
    (h : _is_blank_or_separator line = false) :
    textSectionsAux (line :: rest) i (some s) = textSectionsAux rest (i + 1) (some s) := by
  simp [textSectionsAux, h]

theorem textSectionsAux_bounds :
    ∀ (ls : List String) (i : Nat) (cur : Option Nat),
      (∀ s, cur = some s → s < i) →
      ∀ sec ∈ textSectionsAux ls i cur,
        (match cur with | none => i + 1 | some s => s + 1) ≤ sec.lineStart ∧
          sec.lineStart ≤ sec.lineEnd ∧ sec.lineEnd ≤ i + ls.length := by
  intro ls
  induction ls with
  | nil =>
    intro i cur hcur sec hsec
    cases cur with
    | none => rw [textAux_nil_none] at hsec; cases hsec
    | some s =>
      rw [textAux_nil_some, List.mem_singleton] at hsec
      subst hsec
      have hs := hcur s rfl
      refine ⟨Nat.le_refl _, ?_, ?_⟩
      · show s + 1 ≤ i; omega
      · show i ≤ i + 0; omega
  | cons line rest ih =>
    intro i cur hcur sec hsec
    by_cases hb : _is_blank_or_separator line = true
    · cases cur with
      | none =>
        rw [textAux_cons_none_blank line rest i hb] at hsec
        have h := ih (i + 1) none (by simp) sec hsec
        have h1 : i + 1 + 1 ≤ sec.lineStart := h.1
        have h2 : sec.lineEnd ≤ i + 1 + rest.length := h.2.2
        refine ⟨?_, h.2.1, ?_⟩
        · show i + 1 ≤ sec.lineStart
          omega
        · simp only [List.length_cons]
          omega
      | some s =>
        rw [textAux_cons_some_blank line rest i s hb, List.mem_cons] at hsec
        have hs := hcur s rfl
        rcases hsec with rfl | hsec
        · refine ⟨Nat.le_refl _, ?_, ?_⟩
          · show s + 1 ≤ i; omega
          · show i ≤ i + (rest.length + 1); omega
        · have h := ih (i + 1) none (by simp) sec hsec
          have h1 : i + 1 + 1 ≤ sec.lineStart := h.1
          have h2 : sec.lineEnd ≤ i + 1 + rest.length := h.2.2
          refine ⟨?_, h.2.1, ?_⟩
          · show s + 1 ≤ sec.lineStart
            omega
          · simp only [List.length_cons]
            omega
    · rw [Bool.not_eq_true] at hb
      cases cur with
      | none =>
        rw [textAux_cons_none_text line rest i hb] at hsec
        have h := ih (i + 1) (some i) (by intro s h; cases h; omega) sec hsec
        have h1 : i + 1 ≤ sec.lineStart := h.1
        have h2 : sec.lineEnd ≤ i + 1 + rest.length := h.2.2
        refine ⟨?_, h.2.1, ?_⟩
        · show i + 1 ≤ sec.lineStart
          exact h1
        · simp only [List.length_cons]
          omega
      | some s =>
        rw [textAux_cons_some_text line rest i s hb] at hsec
        have hs := hcur s rfl
        have h := ih (i + 1) (some s) (by intro t h; cases h; omega) sec hsec
        have h1 : s + 1 ≤ sec.lineStart := h.1
        have h2 : sec.lineEnd ≤ i + 1 + rest.length := h.2.2
        refine ⟨?_, h.2.1, ?_⟩
        · show s + 1 ≤ sec.lineStart
          exact h1
        · simp only [List.length_cons]
          omega

theorem textSectionsAux_pairwise :
    ∀ (ls : List String) (i : Nat) (cur : Option Nat),
      (∀ s, cur = some s → s < i) →
      (textSectionsAux ls i cur).Pairwise fun a b => a.lineEnd < b.lineStart := by
  intro ls
  induction ls with
  | nil =>
    intro i cur hcur
    cases cur with
    | none => rw [textAux_nil_none]; exact List.Pairwise.nil
    | some s => rw [textAux_nil_some]; simp
  | cons line rest ih =>
    intro i cur hcur
    by_cases hb : _is_blank_or_separator line = true
    · cases cur with
      | none =>
        rw [textAux_cons_none_blank line rest i hb]
        exact ih (i + 1) none (by simp)
      | some s =>
        rw [textAux_cons_some_blank line rest i s hb]
        refine List.pairwise_cons.mpr ⟨?_, ih (i + 1) none (by simp)⟩
        intro sec hsec
        have h := textSectionsAux_bounds rest (i + 1) none (by simp) sec hsec
        have h1 : i + 1 + 1 ≤ sec.lineStart := h.1
        show i < sec.lineStart
        omega
    · rw [Bool.not_eq_true] at hb
      cases cur with
      | none =>
        rw [textAux_cons_none_text line rest i hb]
        exact ih (i + 1) (some i) (by intro s h; cases h; omega)
      | some s =>
        rw [textAux_cons_some_text line rest i s hb]
        have hs := hcur s rfl
        exact ih (i + 1) (some s) (by intro t h; cases h; omega)

theorem _extract_text_sections_wf (lines : List String) :
    SecWf (_extract_text_sections lines) lines.length := by
  constructor
  · intro sec hsec
    have := textSectionsAux_bounds lines 0 none (by simp) sec hsec
    exact ⟨this.1, this.2.1, by have := this.2.2; omega⟩
  · exact textSectionsAux_pairwise lines 0 none (by simp)

theorem markerIndices_pairwise (p : String → Bool) (lines : List String) :
    (markerIndices p lines).Pairwise (· < ·) :=
  List.Pairwise.filter _ (List.pairwise_lt_range _)

theorem markerIndices_lt (p : String → Bool) (lines : List String) :
    ∀ j ∈ markerIndices p lines, j < lines.length := by
  intro j hj
  have := List.mem_filter.mp hj
  exact List.mem_range.mp this.1

theorem chainSections_marker_wf (p : String → Bool) (lines : List String) :
    SecWf (chainSections (markerIndices p lines) lines.length) lines.length :=
  chainSections_wf lines.length (markerIndices p lines)
    (markerIndices_pairwise p lines) (markerIndices_lt p lines)

theorem _extract_markdown_sections_wf (lines : List String) :
    SecWf (_extract_markdown_sections lines) lines.length := by
  unfold _extract_markdown_sections
  split
  · rename_i h
    have hne : lines ≠ [] := by
      intro heq
      subst heq
      simp at h
    have hpos : 0 < lines.length := List.length_pos.mpr hne
    constructor
    · intro sec hsec
      rw [List.mem_singleton] at hsec
      subst hsec
      exact ⟨Nat.le_refl 1, hpos, Nat.le_refl _⟩
    · simp
  · exact chainSections_marker_wf _is_markdown_header lines

theorem _extract_log_sections_wf (lines : List String) :
    SecWf (_extract_log_sections lines) lines.length := by
  unfold _extract_log_sections
  split
  · exact _extract_text_sections_wf lines
  · exact chainSections_marker_wf _is_log_timestamp lines

theorem _extract_code_sections_wf (lines : List String) (fileExt : String) :
    SecWf (_extract_code_sections lines fileExt) lines.length := by
  unfold _extract_code_sections
  split
  · exact _extract_text_sections_wf lines
  · exact chainSections_marker_wf (isCodeOrCommentStart fileExt) lines

theorem dispatchSections_wf (ext : String) (lines : List String) :
    SecWf (dispatchSections ext lines) lines.length := by
  unfold dispatchSections
  split
  · exact _extract_markdown_sections_wf lines
  split
  · exact _extract_log_sections_wf lines
  split
  · exact _extract_code_sections_wf lines ext
  split
  · exact _extract_text_sections_wf lines
  · exact _extract_text_sections_wf lines

theorem extract_sections_wf (content : String) (fileType : String) :
    SecWf (extract_sections content fileType)
      (dropTrailingBlankLines (splitLines content)).length := by
  unfold extract_sections
  split
  · exact ⟨by simp, by simp⟩
  split
  · exact ⟨by simp, by simp⟩
  · exact dispatchSections_wf (normalizeFileExt fileType) _

theorem pyStripL_allspace (cs : List Char) (h : ∀ c ∈ cs, isPySpace c = true) :
    pyStripL cs = [] := by
  unfold pyStripL
  rw [List.dropWhile_eq_nil_iff.mpr h]
  rfl

theorem normalizeNewlinesL_mem :
    ∀ (cs : List Char), ∀ c ∈ normalizeNewlinesL cs, c = '\n' ∨ c ∈ cs := by
  intro cs
  induction cs using normalizeNewlinesL.induct with
  | case1 => intro c hc; cases hc
  | case2 rest ih =>
    intro c hc
    rw [show normalizeNewlinesL ('\r' :: '\n' :: rest) = '\n' :: normalizeNewlinesL rest
      from rfl] at hc
    rcases List.mem_cons.mp hc with rfl | hc
    · exact Or.inl rfl
    · rcases ih c hc with h | h
      · exact Or.inl h
      · exact Or.inr (by simp [h])
  | case3 rest hne ih =>
    intro c hc
    rw [show normalizeNewlinesL ('\r' :: rest) = '\n' :: normalizeNewlinesL rest by
      rw [normalizeNewlinesL.eq_def]
      cases rest with
      | nil => rfl
      | cons c2 r2 =>
        by_cases h2 : c2 = '\n'
        · exact absurd (by rw [h2]) fun hh => (hne r2 hh).elim
        · simp [h2]] at hc
    rcases List.mem_cons.mp hc with rfl | hc
    · exact Or.inl rfl
    · rcases ih c hc with h | h
      · exact Or.inl h
      · exact Or.inr (by simp [h])
  | case4 c0 rest hne1 hne2 ih =>
    intro c hc
    rw [show normalizeNewlinesL (c0 :: rest) = c0 :: normalizeNewlinesL rest by
      rw [normalizeNewlinesL.eq_def]
      cases rest with
      | nil => simp [hne2]
      | cons c2 r2 => simp [hne2]] at hc
    rcases List.mem_cons.mp hc with rfl | hc
    · exact Or.inr (by simp)
    · rcases ih c hc with h | h
      · exact Or.inl h
      · exact Or.inr (by simp [h])

theorem splitOnNl_cons_ne (c0 : Char) (rest : List Char) (hne : ¬ c0 = '\n') :
    splitOnNl (c0 :: rest) =
      match splitOnNl rest with
      | h :: t => (c0 :: h) :: t
      | [] => [[c0]] := by
  rw [splitOnNl.eq_def]
  cases rest with
  | nil => simp [hne]
  | cons c2 r2 => simp [hne]

theorem splitOnNl_ne_nil : ∀ (cs : List Char), splitOnNl cs ≠ [] := by
  intro cs
  induction cs using splitOnNl.induct with
  | case1 => exact fun h => by cases h
  | case2 rest ih => exact fun h => by cases h
  | case3 c0 rest hne h t hsplit ih =>
    rw [splitOnNl_cons_ne c0 rest hne, hsplit]
    exact fun hh => by cases hh
  | case4 c0 rest hne hsplit ih => exact absurd hsplit ih

theorem splitOnNl_mem :
    ∀ (cs : List Char), ∀ l ∈ splitOnNl cs, ∀ c ∈ l, c ∈ cs := by
  intro cs
  induction cs using splitOnNl.induct with
  | case1 =>
    intro l hl c hc
    rw [show splitOnNl [] = [[]] from rfl, List.mem_singleton] at hl
    subst hl
    cases hc
  | case2 rest ih =>
    intro l hl c hc
    rw [show splitOnNl ('\n' :: rest) = [] :: splitOnNl rest from rfl,
      List.mem_cons] at hl
    rcases hl with rfl | hl
    · cases hc
    · exact List.mem_cons_of_mem _ (ih l hl c hc)
  | case3 c0 rest hne hd t hsplit ih =>
    intro l hl c hc
    rw [splitOnNl_cons_ne c0 rest hne, hsplit] at hl
    rcases List.mem_cons.mp hl with rfl | hl
    · rcases List.mem_cons.mp hc with rfl | hc2
      · simp
      · exact List.mem_cons_of_mem _ (ih hd (by rw [hsplit]; simp) c hc2)
    · exact List.mem_cons_of_mem _
        (ih l (by rw [hsplit]; exact List.mem_cons_of_mem _ hl) c hc)
  | case4 c0 rest hne hsplit ih => exact absurd hsplit (splitOnNl_ne_nil rest)

theorem dropTrailingBlankLines_length_le (lines : List String) :
    (dropTrailingBlankLines lines).length ≤ lines.length := by
  unfold dropTrailingBlankLines
  rw [List.length_reverse]
  calc (lines.reverse.dropWhile fun l => (pyStripL l.toList).isEmpty).length
      ≤ lines.reverse.length := (List.dropWhile_suffix _).sublist.length_le
    _ = lines.length := List.length_reverse lines

example : _is_log_timestamp "2024-01-15 10:30:45 [INFO] x" = true := by decide
example : _is_log_timestamp "[INFO] 2024-01-15" = true := by decide
example : _is_log_timestamp "10:30:45 x" = true := by decide
example : _is_log_timestamp "hello" = false := by decide
example : _is_code_block_start "def my_function(x):" "py" = true := by decide
example : _is_code_block_start "define x" "py" = false := by decide
example : _is_comment_block_start "# ====" "py" = true := by decide
example : extract_sections "x\n\n\n" "txt" = [⟨1, 1⟩] := by decide

theorem docLines_allspace (content : String)
    (h : ∀ c ∈ content.toList, isPySpace c = true) : docLines content = [] := by
  unfold docLines dropTrailingBlankLines
  have hall : ∀ l ∈ (splitLines content).reverse, ((pyStripL l.toList).isEmpty) = true := by
    intro l hl
    rw [List.mem_reverse] at hl
    obtain ⟨csl, hcsl, rfl⟩ := List.mem_map.mp hl
    have hsp : ∀ c ∈ csl, isPySpace c = true := by
      intro c hc
      have hmem := splitOnNl_mem _ csl hcsl c hc
      rcases normalizeNewlinesL_mem _ c hmem with rfl | hcc
      · rfl
      · exact h c hcc
    rw [show (String.mk csl).toList = csl from rfl, pyStripL_allspace csl hsp]
    rfl
  rw [List.dropWhile_eq_nil_iff.mpr hall]
  rfl

theorem extract_sections_of_docLines_nil (content fileType : String)
    (h : docLines content = []) : extract_sections content fileType = [] := by
  unfold extract_sections
  split
  · rfl
  split
  · rfl
  · rename_i h2
    exact absurd (by rw [show dropTrailingBlankLines (splitLines content) =
      docLines content from rfl, h]; rfl) h2

/-- C10: `extract_sections` strips trailing blank lines before
segmentation: whitespace-only (including empty) content yields no
sections, every returned range ends within the stripped line list, and
hence no section covers a line position past the stripped length — in
particular no trailing blank line of the original content. -/
theorem c10_extract_sections_trailing_blank (content fileType : String) :
    ((∀ c ∈ content.toList, isPySpace c = true) →
      extract_sections content fileType = []) ∧
    (∀ sec ∈ extract_sections content fileType,
      sec.lineEnd ≤ (docLines content).length) ∧
    (∀ j, (docLines content).length < j →
      ∀ sec ∈ extract_sections content fileType, coversLine sec j = false) := by
  refine ⟨?_, ?_, ?_⟩
  · intro h
    exact extract_sections_of_docLines_nil content fileType (docLines_allspace content h)
  · intro sec hsec
    exact ((extract_sections_wf content fileType).1 sec hsec).2.2
  · intro j hj sec hsec
    have hend := ((extract_sections_wf content fileType).1 sec hsec).2.2
    have hend2 : sec.lineEnd ≤ (docLines content).length := hend
    simp only [coversLine, Bool.and_eq_false_iff, decide_eq_false_iff_not]
    right
    omega

/-- C4 (amended): for every input and file type tag the extracted ranges
are pairwise non-overlapping, ordered by ascending `line_start`, and every
`line_end` — the last section's included — is at most the document's line
count.  (The unamended "equals the line count" fails for the blank-line
strategy; see the counterexample.) -/
theorem c4_extract_sections_invariant (content fileType : String) :
    ((extract_sections content fileType).Pairwise fun a b => a.lineEnd < b.lineStart) ∧
    ((extract_sections content fileType).Pairwise fun a b => a.lineStart < b.lineStart) ∧
    (∀ sec ∈ extract_sections content fileType,
      sec.lineEnd ≤ (splitLines content).length) := by
  obtain ⟨hb, hp⟩ := extract_sections_wf content fileType
  refine ⟨hp, ?_, ?_⟩
  · refine (List.Pairwise.and_mem.mp hp).imp ?_
    intro a b ⟨ha, _, hr⟩
    exact lt_of_le_of_lt (hb a ha).2.1 hr
  · intro sec hsec
    exact le_trans (hb sec hsec).2.2 (dropTrailingBlankLines_length_le _)

theorem extract_sections_md_eq (content : String) (hne : docLines content ≠ []) :
    extract_sections content "md" = _extract_markdown_sections (docLines content) := by
  have hc : content.toList.isEmpty = false := by
    cases content with
    | mk data =>
      cases data with
      | nil => exact absurd rfl hne
      | cons c cs => rfl
  have h2 : (docLines content).isEmpty = false := by
    cases h : docLines content with
    | nil => exact absurd h hne
    | cons a t => rfl
  unfold extract_sections
  rw [hc]
  simp only [Bool.false_eq_true, if_false]
  rw [show dropTrailingBlankLines (splitLines content) = docLines content from rfl, h2]
  simp only [Bool.false_eq_true, if_false]
  unfold dispatchSections
  rw [show normalizeFileExt "md" = "md" from by decide]
  rw [if_pos (by decide : MARKDOWN_EXTENSIONS.contains "md" = true)]

/-- C3 (amended): for every markdown document with at least one
(post-strip) line, the extracted sections partition the lines from the
first header line to end of file — each such line lies in exactly one
section, sections start exactly at the header lines, abut consecutively
and end at end of file — while lines before the first header lie in no
section; an input with zero headers yields exactly one section covering
the whole file.  (The unamended "every line belongs to exactly one
section" fails when content precedes the first header; see the
counterexample.) -/
theorem c3_markdown_sections_partition (content : String)
    (hne : docLines content ≠ []) : MarkdownPartitionSpec content := by
  have heq := extract_sections_md_eq content hne
  have hempty : (docLines content).isEmpty = false := by
    cases h : docLines content with
    | nil => exact absurd h hne
    | cons a t => rfl
  unfold MarkdownPartitionSpec
  rw [heq]
  by_cases hmk : markerIndices _is_markdown_header (docLines content) = []
  · have hmd : _extract_markdown_sections (docLines content) =
        [{ lineStart := 1, lineEnd := (docLines content).length }] := by
      unfold _extract_markdown_sections
      rw [hmk, chainSections_nil]
      rw [if_pos (by rw [hempty]; rfl)]
    refine ⟨fun _ => hmd, ?_, ?_, ?_⟩
    · intro i hi
      rw [hmk] at hi
      cases hi
    · rw [hmd]
      exact List.chain'_singleton _
    · intro sec h
      rw [hmd] at h
      simp only [List.getLast?_singleton, Option.some_inj] at h
      rw [← h]
  · have hmd : _extract_markdown_sections (docLines content) =
        chainSections (markerIndices _is_markdown_header (docLines content))
          (docLines content).length := by
      unfold _extract_markdown_sections
      rw [if_neg]
      cases hm : markerIndices _is_markdown_header (docLines content) with
      | nil => exact absurd hm hmk
      | cons a t =>
        cases t with
        | nil => rw [chainSections_singleton]; simp
        | cons b t2 => rw [chainSections_cons_cons]; simp
    refine ⟨fun h => absurd h hmk, ?_, ?_, ?_⟩
    · intro i hi
      have hcov := chainSections_cover (docLines content).length
        (markerIndices _is_markdown_header (docLines content)) i
        (markerIndices_pairwise _ _) (markerIndices_lt _ _) hi
      rw [hmd]
      exact ⟨hcov.1, hcov.2, chainSections_map_lineStart _ _⟩
    · rw [hmd]
      exact chainSections_chain' _ _
    · rw [hmd]
      exact chainSections_getLast_lineEnd _ _

/-- Witness for C3 at the concrete document `"# A\nx\n## B"`. -/
theorem c3_markdown_sections_partition_witness :
    docLines "# A\nx\n## B" ≠ [] ∧ MarkdownPartitionSpec "# A\nx\n## B" :=
  ⟨by decide, c3_markdown_sections_partition _ (by decide)⟩

/-- C3 counterexample: on `"intro\n# Head"` (markdown, two lines) the
only extracted section is lines 2–2, so line 1 belongs to no section —
refuting "every line belongs to exactly one section (no gaps)". -/
theorem c3_counterexample :
    extract_sections "intro\n# Head" "md" = [{ lineStart := 2, lineEnd := 2 }] ∧
    countCovering (extract_sections "intro\n# Head" "md") 1 = 0 ∧
    docLines "intro\n# Head" = ["intro", "# Head"] := by decide

/-- C4 counterexample: on `"hello\n---"` with type `txt`, the trailing
separator line closes the section one line early, so the last section's
`line_end` is 1 while the document has 2 lines (stripped or not) —
refuting "the last section's line_end equals the document's line count". -/
theorem c4_counterexample :
    (extract_sections "hello\n---" "txt").getLast? =
      some { lineStart := 1, lineEnd := 1 } ∧
    (splitLines "hello\n---").length = 2 ∧
    (docLines "hello\n---").length = 2 := by decide


theorem insertFused_mem (x : FusedResult) (l : List FusedResult) :
    ∀ z, z ∈ insertFused x l ↔ z = x ∨ z ∈ l := by
  induction l with
  | nil => intro z; simp [insertFused]
  | cons y ys ih =>
    intro z
    rw [insertFused]
    split
    · simp
    · rw [List.mem_cons, ih z, List.mem_cons]
      tauto

theorem insertFused_sorted (x : FusedResult) (l : List FusedResult)
    (h : l.Pairwise fun a b => b.score ≤ a.score) :
    (insertFused x l).Pairwise fun a b => b.score ≤ a.score := by
  induction l with
  | nil => simp [insertFused]
  | cons y ys ih =>
    rw [insertFused]
    obtain ⟨hy, hys⟩ := List.pairwise_cons.mp h
    split
    · rename_i hlt
      refine List.pairwise_cons.mpr ⟨?_, h⟩
      intro z hz
      rcases List.mem_cons.mp hz with rfl | hz
      · exact le_of_lt hlt
      · exact le_trans (hy z hz) (le_of_lt hlt)
    · rename_i hnlt
      refine List.pairwise_cons.mpr ⟨?_, ih hys⟩
      intro z hz
      rcases (insertFused_mem x ys z).mp hz with rfl | hz
      · exact le_of_not_lt hnlt
      · exact hy z hz

theorem sortFusedDesc_sorted (l : List FusedResult) :
    (sortFusedDesc l).Pairwise fun a b => b.score ≤ a.score := by
  induction l with
  | nil => exact List.Pairwise.nil
  | cons y ys ih => exact insertFused_sorted y (sortFusedDesc ys) ih

theorem sortFusedDesc_mem (l : List FusedResult) :
    ∀ z, z ∈ sortFusedDesc l ↔ z ∈ l := by
  induction l with
  | nil => intro z; rfl
  | cons y ys ih =>
    intro z
    rw [show sortFusedDesc (y :: ys) = insertFused y (sortFusedDesc ys) from rfl,
      insertFused_mem, ih z, List.mem_cons]

theorem insertFused_length (x : FusedResult) (l : List FusedResult) :
    (insertFused x l).length = l.length + 1 := by
  induction l with
  | nil => rfl
  | cons y ys ih =>
    rw [insertFused]
    split
    · rfl
    · simp [ih]

theorem sortFusedDesc_length (l : List FusedResult) :
    (sortFusedDesc l).length = l.length := by
  induction l with
  | nil => rfl
  | cons y ys ih =>
    rw [show sortFusedDesc (y :: ys) = insertFused y (sortFusedDesc ys) from rfl,
      insertFused_length, ih]
    rfl

theorem rgStep_length_pos (acc : List (String × CombinedEntry)) (r : Hit) :
    1 ≤ (rgStep acc r).length := by
  unfold rgStep
  split
  · rename_i hs
    rw [List.length_map]
    cases acc with
    | nil => simp [List.lookup] at hs
    | cons a t => simp
  · simp

theorem ftsStep_length_pos (acc : List (String × CombinedEntry)) (r : Hit) :
    1 ≤ (ftsStep acc r).length := by
  unfold ftsStep dictSet
  split
  · rename_i hs
    rw [List.length_map]
    cases acc with
    | nil => simp [List.lookup] at hs
    | cons a t => simp
  · simp

theorem rgStep_length_le (acc : List (String × CombinedEntry)) (r : Hit) :
    acc.length ≤ (rgStep acc r).length := by
  unfold rgStep
  split
  · rw [List.length_map]
  · simp

theorem foldl_rgStep_length_pos :
    ∀ (hits : List Hit) (acc : List (String × CombinedEntry)),
      1 ≤ acc.length ∨ hits ≠ [] →
      1 ≤ (List.foldl rgStep acc hits).length := by
  intro hits
  induction hits with
  | nil =>
    intro acc h
    rcases h with h | h
    · exact h
    · exact absurd rfl h
  | cons r rest ih =>
    intro acc _
    rw [List.foldl_cons]
    exact ih (rgStep acc r) (Or.inl (rgStep_length_pos acc r))

theorem foldl_ftsStep_length_pos :
    ∀ (hits : List Hit) (acc : List (String × CombinedEntry)),
      1 ≤ acc.length ∨ hits ≠ [] →
      1 ≤ (List.foldl ftsStep acc hits).length := by
  intro hits
  induction hits with
  | nil =>
    intro acc h
    rcases h with h | h
    · exact h
    · exact absurd rfl h
  | cons r rest ih =>
    intro acc _
    rw [List.foldl_cons]
    exact ih (ftsStep acc r) (Or.inl (ftsStep_length_pos acc r))

theorem rgStep_result (acc : List (String × CombinedEntry)) (r : Hit) :
    ∀ p ∈ rgStep acc r, (∃ q ∈ acc, p.2.result = q.2.result) ∨ p.2.result = r := by
  intro p hp
  unfold rgStep at hp
  split at hp
  · obtain ⟨q, hq, hqe⟩ := List.mem_map.mp hp
    by_cases hk : q.1 = get_dedup_key r.filepath
    · rw [if_pos hk] at hqe
      left
      exact ⟨q, hq, by rw [← hqe]; rfl⟩
    · rw [if_neg hk] at hqe
      left
      exact ⟨q, hq, by rw [← hqe]⟩
  · rcases List.mem_append.mp hp with hp | hp
    · left
      exact ⟨p, hp, rfl⟩
    · right
      rw [List.mem_singleton] at hp
      rw [hp]

theorem ftsStep_result (acc : List (String × CombinedEntry)) (r : Hit) :
    ∀ p ∈ ftsStep acc r, (∃ q ∈ acc, p.2.result = q.2.result) ∨ p.2.result = r := by
  intro p hp
  unfold ftsStep dictSet at hp
  split at hp
  · obtain ⟨q, hq, hqe⟩ := List.mem_map.mp hp
    by_cases hk : q.1 = get_dedup_key r.filepath
    · rw [if_pos hk] at hqe
      right
      rw [← hqe]
    · rw [if_neg hk] at hqe
      left
      exact ⟨q, hq, by rw [← hqe]⟩
  · rcases List.mem_append.mp hp with hp | hp
    · left
      exact ⟨p, hp, rfl⟩
    · right
      rw [List.mem_singleton] at hp
      rw [hp]

theorem foldl_rgStep_result :
    ∀ (hits : List Hit) (acc : List (String × CombinedEntry)),
      ∀ p ∈ List.foldl rgStep acc hits,
        (∃ q ∈ acc, p.2.result = q.2.result) ∨ ∃ h ∈ hits, p.2.result = h := by
  intro hits
  induction hits with
  | nil =>
    intro acc p hp
    exact Or.inl ⟨p, hp, rfl⟩
  | cons r rest ih =>
    intro acc p hp
    rw [List.foldl_cons] at hp
    rcases ih (rgStep acc r) p hp with ⟨q, hq, hqe⟩ | ⟨h, hh, hhe⟩
    · rcases rgStep_result acc r q hq with ⟨q2, hq2, hq2e⟩ | hqr
      · exact Or.inl ⟨q2, hq2, by rw [hqe, hq2e]⟩
      · exact Or.inr ⟨r, by simp, by rw [hqe, hqr]⟩
    · exact Or.inr ⟨h, by simp [hh], hhe⟩

theorem foldl_ftsStep_result :
    ∀ (hits : List Hit) (acc : List (String × CombinedEntry)),
      ∀ p ∈ List.foldl ftsStep acc hits,
        (∃ q ∈ acc, p.2.result = q.2.result) ∨ ∃ h ∈ hits, p.2.result = h := by
  intro hits
  induction hits with
  | nil =>
    intro acc p hp
    exact Or.inl ⟨p, hp, rfl⟩
  | cons r rest ih =>
    intro acc p hp
    rw [List.foldl_cons] at hp
    rcases ih (ftsStep acc r) p hp with ⟨q, hq, hqe⟩ | ⟨h, hh, hhe⟩
    · rcases ftsStep_result acc r q hq with ⟨q2, hq2, hq2e⟩ | hqr
      · exact Or.inl ⟨q2, hq2, by rw [hqe, hq2e]⟩
      · exact Or.inr ⟨r, by simp, by rw [hqe, hqr]⟩
    · exact Or.inr ⟨h, by simp [hh], hhe⟩

theorem search_combined_results_sorted
    (fts rg : Except String (List Hit)) (limit : Nat) :
    ((search_combined fts rg limit).results).Pairwise
      fun a b => b.score ≤ a.score := by
  cases fts with
  | error e1 =>
    cases rg with
    | error e2 => exact List.Pairwise.nil
    | ok hits =>
      exact ((sortFusedDesc_sorted _).sublist (List.take_sublist _ _))
  | ok fhits =>
    cases rg with
    | error e2 =>
      exact ((sortFusedDesc_sorted _).sublist (List.take_sublist _ _))
    | ok hits =>
      exact ((sortFusedDesc_sorted _).sublist (List.take_sublist _ _))

/-- C5: the fused score equals `min(1.0, 0.6*ranked + 0.4*lexical + b)`
with `b = 0.2` exactly when both channels hit (the `both` flag); it is
monotonically non-decreasing in either channel score, never exceeds 1,
and the result list of `search_combined` is sorted by fused score
descending. -/
theorem c5_fused_score_properties :
    (∀ f r : Rat, ∀ both : Bool,
      fusedScore f r both =
        min 1 (3 / 5 * f + 2 / 5 * r + (if both then (1 / 5 : Rat) else 0))) ∧
    (∀ f g r : Rat, ∀ both : Bool, f ≤ g →
      fusedScore f r both ≤ fusedScore g r both) ∧
    (∀ f r s : Rat, ∀ both : Bool, r ≤ s →
      fusedScore f r both ≤ fusedScore f s both) ∧
    (∀ f r : Rat, ∀ both : Bool, fusedScore f r both ≤ 1) ∧
    (∀ (fts rg : Except String (List Hit)) (limit : Nat),
      ((search_combined fts rg limit).results).Pairwise
        fun a b => b.score ≤ a.score) := by
  refine ⟨?_, ?_, ?_, ?_, search_combined_results_sorted⟩
  · intro f r both
    rfl
  · intro f g r both h
    unfold fusedScore
    apply min_le_min (le_refl 1)
    have h3 : FTS_WEIGHT * f ≤ FTS_WEIGHT * g := by
      apply mul_le_mul_of_nonneg_left h
      norm_num [FTS_WEIGHT]
    linarith
  · intro f r s both h
    unfold fusedScore
    apply min_le_min (le_refl 1)
    have h3 : RIPGREP_WEIGHT * r ≤ RIPGREP_WEIGHT * s := by
      apply mul_le_mul_of_nonneg_left h
      norm_num [RIPGREP_WEIGHT]
    linarith
  · intro f r both
    exact min_le_left 1 _

/-- Witness for C5's monotonicity parts at concrete scores. -/
theorem c5_fused_score_properties_witness :
    ((1 : Rat) / 2 ≤ 3 / 4 ∧
      fusedScore (1 / 2) (1 / 2) true ≤ fusedScore (3 / 4) (1 / 2) true) ∧
    ((1 : Rat) / 4 ≤ 1 / 2 ∧
      fusedScore (1 / 2) (1 / 4) false ≤ fusedScore (1 / 2) (1 / 2) false) :=
  ⟨⟨by norm_num,
    c5_fused_score_properties.2.1 (1 / 2) (3 / 4) (1 / 2) true (by norm_num)⟩,
   ⟨by norm_num,
    c5_fused_score_properties.2.2.1 (1 / 2) (1 / 4) (1 / 2) false (by norm_num)⟩⟩

/-- C6: when both channels fail, `search_combined` returns empty results
carrying both error messages and does not raise; when exactly one
channel fails and the survivor found matches (and the limit admits at
least one result), the stats record the failed channel's error and no
error for the survivor, the result list is non-empty with a positive
`returned_count`, and every returned result stems from a surviving
channel's hit. -/
theorem c6_channel_failure_degradation :
    (∀ e1 e2 limit, search_combined (.error e1) (.error e2) limit =
      { stats := { ftsCount := 0, rgCount := 0, combinedCount := 0,
                   returnedCount := 0, ftsError := some e1, rgError := some e2 },
        results := [] }) ∧
    (∀ (e : String) (hits : List Hit) (limit : Nat), hits ≠ [] → 1 ≤ limit →
      (search_combined (.error e) (.ok hits) limit).stats.ftsError = some e ∧
      (search_combined (.error e) (.ok hits) limit).stats.rgError = none ∧
      0 < (search_combined (.error e) (.ok hits) limit).stats.returnedCount ∧
      (search_combined (.error e) (.ok hits) limit).results ≠ [] ∧
      ∀ res ∈ (search_combined (.error e) (.ok hits) limit).results,
        ∃ h ∈ hits, res.filepath = h.filepath) ∧
    (∀ (e : String) (hits : List Hit) (limit : Nat), hits ≠ [] → 1 ≤ limit →
      (search_combined (.ok hits) (.error e) limit).stats.ftsError = none ∧
      (search_combined (.ok hits) (.error e) limit).stats.rgError = some e ∧
      0 < (search_combined (.ok hits) (.error e) limit).stats.returnedCount ∧
      (search_combined (.ok hits) (.error e) limit).results ≠ [] ∧
      ∀ res ∈ (search_combined (.ok hits) (.error e) limit).results,
        ∃ h ∈ hits, res.filepath = h.filepath) := by
  refine ⟨fun e1 e2 limit => rfl, ?_, ?_⟩
  · intro e hits limit hne hlim
    have hcomb : 1 ≤ (buildCombined [] hits).length :=
      foldl_rgStep_length_pos hits _ (Or.inr hne)
    have hlen : 0 <
        ((sortFusedDesc ((buildCombined [] hits).map scoreEntry)).take limit).length := by
      rw [List.length_take, sortFusedDesc_length, List.length_map]
      omega
    refine ⟨rfl, rfl, hlen, List.length_pos.mp hlen, ?_⟩
    intro res hres
    have hres2 : res ∈ sortFusedDesc ((buildCombined [] hits).map scoreEntry) :=
      List.take_subset _ _ hres
    rw [sortFusedDesc_mem] at hres2
    obtain ⟨p, hp, rfl⟩ := List.mem_map.mp hres2
    have hp2 : p ∈ List.foldl rgStep [] hits := hp
    rcases foldl_rgStep_result hits [] p hp2 with ⟨q, hq, _⟩ | ⟨h, hh, hhe⟩
    · cases hq
    · exact ⟨h, hh, by
        rw [show (scoreEntry p).filepath = p.2.result.filepath from rfl, hhe]⟩
  · intro e hits limit hne hlim
    have hcomb : 1 ≤ (buildCombined hits []).length :=
      foldl_ftsStep_length_pos hits [] (Or.inr hne)
    have hlen : 0 <
        ((sortFusedDesc ((buildCombined hits []).map scoreEntry)).take limit).length := by
      rw [List.length_take, sortFusedDesc_length, List.length_map]
      omega
    refine ⟨rfl, rfl, hlen, List.length_pos.mp hlen, ?_⟩
    intro res hres
    have hres2 : res ∈ sortFusedDesc ((buildCombined hits []).map scoreEntry) :=
      List.take_subset _ _ hres
    rw [sortFusedDesc_mem] at hres2
    obtain ⟨p, hp, rfl⟩ := List.mem_map.mp hres2
    have hp2 : p ∈ List.foldl ftsStep [] hits := hp
    rcases foldl_ftsStep_result hits [] p hp2 with ⟨q, hq, _⟩ | ⟨h, hh, hhe⟩
    · cases hq
    · exact ⟨h, hh, by
        rw [show (scoreEntry p).filepath = p.2.result.filepath from rfl, hhe]⟩

/-- Witness for C6: with the lexical tool absent (`ripgrep` channel in
error) the ranked channel's one hit for "hello" is returned with the
error recorded and `returned_count > 0`. -/
theorem c6_channel_failure_degradation_witness :
    ([({ filepath := "notes/hello.md", score := 1 / 2 } : Hit)] ≠ ([] : List Hit)) ∧
    (1 ≤ 50) ∧
    ((search_combined
        (.ok [{ filepath := "notes/hello.md", score := 1 / 2 }])
        (.error "ripgrep not found") 50).stats.ftsError = none ∧
      (search_combined
        (.ok [{ filepath := "notes/hello.md", score := 1 / 2 }])
        (.error "ripgrep not found") 50).stats.rgError = some "ripgrep not found" ∧
      0 < (search_combined
        (.ok [{ filepath := "notes/hello.md", score := 1 / 2 }])
        (.error "ripgrep not found") 50).stats.returnedCount ∧
      (search_combined
        (.ok [{ filepath := "notes/hello.md", score := 1 / 2 }])
        (.error "ripgrep not found") 50).results ≠ [] ∧
      ∀ res ∈ (search_combined
        (.ok [{ filepath := "notes/hello.md", score := 1 / 2 }])
        (.error "ripgrep not found") 50).results,
        ∃ h ∈ [({ filepath := "notes/hello.md", score := 1 / 2 } : Hit)],
          res.filepath = h.filepath) :=
  ⟨by decide, by decide,
   c6_channel_failure_degradation.2.2 "ripgrep not found"
     [{ filepath := "notes/hello.md", score := 1 / 2 }] 50
     (by decide) (by decide)⟩

theorem lookup_cons_self {β : Type} (k : String) (b : β) (es : List (String × β)) :
    List.lookup k ((k, b) :: es) = some b := by
  simp [List.lookup]

theorem lookup_cons_ne {β : Type} (a k : String) (b : β) (es : List (String × β))
    (h : ¬ a = k) : List.lookup a ((k, b) :: es) = List.lookup a es := by
  simp only [List.lookup, beq_false_of_ne h]

theorem lookup_map_of_nodup {β γ : Type} (l : List (String × β)) (g : String × β → γ)
    (hn : (l.map Prod.fst).Nodup) (d : String × β) (hd : d ∈ l) :
    List.lookup d.1 (l.map fun e => (e.1, g e)) = some (g d) := by
  induction l with
  | nil => cases hd
  | cons e rest ih =>
    rw [List.map_cons, List.nodup_cons] at hn
    obtain ⟨hk, hrest⟩ := hn
    rcases List.mem_cons.mp hd with rfl | hd2
    · rw [List.map_cons, lookup_cons_self]
    · have hne : ¬ d.1 = e.1 := fun he =>
        hk (he ▸ List.mem_map_of_mem Prod.fst hd2)
      rw [List.map_cons, lookup_cons_ne _ _ _ _ hne]
      exact ih hrest hd2

theorem vec_lookup_mem {v : Vec} {k : String} {w : Rat}
    (h : List.lookup k v = some w) : (k, w) ∈ v := by
  induction v with
  | nil => cases h
  | cons p rest ih =>
    obtain ⟨pk, pv⟩ := p
    by_cases hke : k = pk
    · subst hke
      rw [lookup_cons_self, Option.some_inj] at h
      subst h
      exact List.mem_cons_self _ _
    · rw [lookup_cons_ne k pk pv rest hke] at h
      exact List.mem_cons_of_mem _ (ih h)

theorem vecVal_not_mem {v : Vec} {k : String} (h : k ∉ v.map Prod.fst) :
    vecVal v k = 0 := by
  induction v with
  | nil => rfl
  | cons p rest ih =>
    obtain ⟨pk, pv⟩ := p
    rw [List.map_cons] at h
    have hke : ¬ k = pk := fun he => h (by rw [he]; exact List.mem_cons_self _ _)
    unfold vecVal
    rw [lookup_cons_ne k pk pv rest hke]
    exact ih fun hm => h (List.mem_cons_of_mem _ hm)

theorem vecVal_nonneg {v : Vec} (hnn : ∀ p ∈ v, 0 ≤ p.2) (k : String) :
    0 ≤ vecVal v k := by
  unfold vecVal
  cases h : List.lookup k v with
  | none => exact le_refl 0
  | some w => exact hnn (k, w) (vec_lookup_mem h)

theorem dot_eq_sum_keys (v1 v2 : Vec) (h1 : (v1.map Prod.fst).Nodup) :
    (v1.filterMap fun p => (List.lookup p.1 v2).map fun w => p.2 * w).sum =
      ∑ k in (v1.map Prod.fst).toFinset, vecVal v1 k * vecVal v2 k := by
  induction v1 with
  | nil => simp
  | cons p rest ih =>
    obtain ⟨pk, pv⟩ := p
    rw [List.map_cons, List.nodup_cons] at h1
    obtain ⟨hk, hrest⟩ := h1
    have hins : ((pk :: rest.map Prod.fst).toFinset) =
        insert pk (rest.map Prod.fst).toFinset := by simp
    have hval1 : vecVal ((pk, pv) :: rest) pk = pv := by
      unfold vecVal
      rw [lookup_cons_self]
      rfl
    have hcongr : ∑ k in (rest.map Prod.fst).toFinset,
        vecVal ((pk, pv) :: rest) k * vecVal v2 k =
        ∑ k in (rest.map Prod.fst).toFinset, vecVal rest k * vecVal v2 k := by
      refine Finset.sum_congr rfl fun k hkm => ?_
      have hkr : k ∈ rest.map Prod.fst := List.mem_toFinset.mp hkm
      have hne : ¬ k = pk := fun heq => hk (heq ▸ hkr)
      unfold vecVal
      rw [lookup_cons_ne k pk pv rest hne]
    have hknot : pk ∉ (rest.map Prod.fst).toFinset := fun hin =>
      hk (List.mem_toFinset.mp hin)
    rw [List.map_cons, hins, Finset.sum_insert hknot, hval1, hcongr, ← ih hrest,
      List.filterMap_cons]
    cases hv : List.lookup pk v2 with
    | none =>
      have hz : vecVal v2 pk = 0 := by unfold vecVal; rw [hv]; rfl
      rw [hz, mul_zero, zero_add]
      simp
    | some w =>
      have hw : vecVal v2 pk = w := by unfold vecVal; rw [hv]; rfl
      rw [hw]
      simp

theorem cos_eq_sum_union (v1 v2 : Vec) (h1 : (v1.map Prod.fst).Nodup) :
    _cosine_similarity v1 v2 =
      ∑ k in ((v1.map Prod.fst).toFinset ∪ (v2.map Prod.fst).toFinset),
        vecVal v1 k * vecVal v2 k := by
  unfold _cosine_similarity
  split
  · rename_i hemp
    rcases Bool.or_eq_true_iff.mp hemp with he | he
    · have hv1 : v1 = [] := List.isEmpty_iff.mp he
      subst hv1
      refine (Finset.sum_eq_zero fun k _ => ?_).symm
      rw [show vecVal [] k = 0 from rfl, zero_mul]
    · have hv2 : v2 = [] := List.isEmpty_iff.mp he
      subst hv2
      refine (Finset.sum_eq_zero fun k _ => ?_).symm
      rw [show vecVal [] k = 0 from rfl, mul_zero]
  · rw [dot_eq_sum_keys v1 v2 h1]
    refine Finset.sum_subset (Finset.subset_union_left) fun k _ hk => ?_
    rw [vecVal_not_mem fun hm => hk (List.mem_toFinset.mpr hm), zero_mul]

theorem sumSq_eq_sum_keys (v : Vec) (h : (v.map Prod.fst).Nodup) :
    vecSumSq v = ∑ k in (v.map Prod.fst).toFinset, vecVal v k * vecVal v k := by
  induction v with
  | nil => simp [vecSumSq]
  | cons p rest ih =>
    obtain ⟨pk, pv⟩ := p
    rw [List.map_cons, List.nodup_cons] at h
    obtain ⟨hk, hrest⟩ := h
    have hins : ((pk :: rest.map Prod.fst).toFinset) =
        insert pk (rest.map Prod.fst).toFinset := by simp
    have hvali : vecVal ((pk, pv) :: rest) pk = pv := by
      unfold vecVal
      rw [lookup_cons_self]
      rfl
    have hcongr : ∑ k in (rest.map Prod.fst).toFinset,
        vecVal ((pk, pv) :: rest) k * vecVal ((pk, pv) :: rest) k =
        ∑ k in (rest.map Prod.fst).toFinset, vecVal rest k * vecVal rest k := by
      refine Finset.sum_congr rfl fun k hkm => ?_
      have hkr : k ∈ rest.map Prod.fst := List.mem_toFinset.mp hkm
      have hne : ¬ k = pk := fun heq => hk (heq ▸ hkr)
      unfold vecVal
      rw [lookup_cons_ne k pk pv rest hne]
    have hknot : pk ∉ (rest.map Prod.fst).toFinset := fun hin =>
      hk (List.mem_toFinset.mp hin)
    rw [List.map_cons, hins, Finset.sum_insert hknot, hvali, hcongr, ← ih hrest]
    rw [show vecSumSq ((pk, pv) :: rest) = pv * pv + vecSumSq rest from by
      unfold vecSumSq
      rw [List.map_cons, List.sum_cons]]

theorem cosine_le_one (v1 v2 : Vec)
    (h1 : (v1.map Prod.fst).Nodup) (h2 : (v2.map Prod.fst).Nodup)
    (hs1 : vecSumSq v1 ≤ 1) (hs2 : vecSumSq v2 ≤ 1) :
    _cosine_similarity v1 v2 ≤ 1 := by
  set K := (v1.map Prod.fst).toFinset ∪ (v2.map Prod.fst).toFinset with hK
  have hsum1 : ∑ k in K, vecVal v1 k * vecVal v1 k = vecSumSq v1 := by
    rw [sumSq_eq_sum_keys v1 h1]
    refine (Finset.sum_subset (Finset.subset_union_left) fun k _ hk => ?_).symm
    rw [vecVal_not_mem fun hm => hk (List.mem_toFinset.mpr hm), zero_mul]
  have hsum2 : ∑ k in K, vecVal v2 k * vecVal v2 k = vecSumSq v2 := by
    rw [sumSq_eq_sum_keys v2 h2]
    refine (Finset.sum_subset (Finset.subset_union_right) fun k _ hk => ?_).symm
    rw [vecVal_not_mem fun hm => hk (List.mem_toFinset.mpr hm), zero_mul]
  rw [cos_eq_sum_union v1 v2 h1, ← hK]
  have hterm : ∀ k ∈ K, vecVal v1 k * vecVal v2 k ≤
      (vecVal v1 k * vecVal v1 k + vecVal v2 k * vecVal v2 k) / 2 := by
    intro k _
    have := two_mul_le_add_sq (vecVal v1 k) (vecVal v2 k)
    rw [sq, sq] at this
    linarith
  calc ∑ k in K, vecVal v1 k * vecVal v2 k
      ≤ ∑ k in K, (vecVal v1 k * vecVal v1 k + vecVal v2 k * vecVal v2 k) / 2 :=
        Finset.sum_le_sum hterm
    _ = (∑ k in K, vecVal v1 k * vecVal v1 k + ∑ k in K, vecVal v2 k * vecVal v2 k) / 2 := by
        rw [← Finset.sum_add_distrib, Finset.sum_div]
    _ ≤ (1 + 1) / 2 := by
        rw [hsum1, hsum2]
        linarith
    _ = 1 := by norm_num

theorem cosine_nonneg (v1 v2 : Vec)
    (h1 : (v1.map Prod.fst).Nodup)
    (hnn1 : ∀ p ∈ v1, 0 ≤ p.2) (hnn2 : ∀ p ∈ v2, 0 ≤ p.2) :
    0 ≤ _cosine_similarity v1 v2 := by
  rw [cos_eq_sum_union v1 v2 h1]
  exact Finset.sum_nonneg fun k _ =>
    mul_nonneg (vecVal_nonneg hnn1 k) (vecVal_nonneg hnn2 k)

theorem insertSim_mem (x : String × Rat) (l : List (String × Rat)) :
    ∀ z, z ∈ insertSim x l ↔ z = x ∨ z ∈ l := by
  induction l with
  | nil => intro z; simp [insertSim]
  | cons y ys ih =>
    intro z
    rw [insertSim]
    split
    · simp
    · rw [List.mem_cons, ih z, List.mem_cons]
      tauto

theorem sortSimsDesc_mem (l : List (String × Rat)) :
    ∀ z, z ∈ sortSimsDesc l ↔ z ∈ l := by
  induction l with
  | nil => intro z; rfl
  | cons y ys ih =>
    intro z
    rw [show sortSimsDesc (y :: ys) = insertSim y (sortSimsDesc ys) from rfl,
      insertSim_mem, ih z, List.mem_cons]

theorem similarList_no_self (vectors : List (String × Vec))
    (documents : List (String × List String)) (targetVector : Vec)
    (targetPath : String) (top : Nat) :
    targetPath ∉ (similarList vectors documents targetVector targetPath top).map
      Prod.fst := by
  intro hmem
  obtain ⟨x, hx, hxe⟩ := List.mem_map.mp hmem
  have hx2 : x ∈ sortSimsDesc (documents.filterMap fun d =>
      if d.1 = targetPath then none
      else if 0 < _cosine_similarity targetVector ((List.lookup d.1 vectors).getD []) then
        some (d.1, _cosine_similarity targetVector ((List.lookup d.1 vectors).getD []))
      else none) := List.take_subset _ _ hx
  rw [sortSimsDesc_mem] at hx2
  obtain ⟨d, _, hd⟩ := List.mem_filterMap.mp hx2
  by_cases hdt : d.1 = targetPath
  · rw [if_pos hdt] at hd
    cases hd
  · rw [if_neg hdt] at hd
    split at hd
    · rw [Option.some_inj] at hd
      apply hdt
      rw [← hxe, ← hd]
    · cases hd

/-- C7: cosine similarity is symmetric, and on non-negative vectors whose
squared sum is at most 1 — the shape L2 normalization produces — it lies
in [0, 1]; moreover the target document never appears in its own
related-files result list. -/
theorem c7_cosine_symmetric_bounded_self_excluded :
    (∀ v1 v2 : Vec, (v1.map Prod.fst).Nodup → (v2.map Prod.fst).Nodup →
      _cosine_similarity v1 v2 = _cosine_similarity v2 v1) ∧
    (∀ v1 v2 : Vec, (v1.map Prod.fst).Nodup → (v2.map Prod.fst).Nodup →
      (∀ p ∈ v1, 0 ≤ p.2) → (∀ p ∈ v2, 0 ≤ p.2) →
      vecSumSq v1 ≤ 1 → vecSumSq v2 ≤ 1 →
      0 ≤ _cosine_similarity v1 v2 ∧ _cosine_similarity v1 v2 ≤ 1) ∧
    (∀ (log sqrtQ : Rat → Rat) (rows : List (String × String)) (filepath : String)
      (top : Nat), SelfExcluded (cmd_related log sqrtQ rows filepath top)) := by
  refine ⟨?_, ?_, ?_⟩
  · intro v1 v2 h1 h2
    rw [cos_eq_sum_union v1 v2 h1, cos_eq_sum_union v2 v1 h2, Finset.union_comm]
    exact Finset.sum_congr rfl fun k _ => mul_comm _ _
  · intro v1 v2 h1 h2 hnn1 hnn2 hs1 hs2
    exact ⟨cosine_nonneg v1 v2 h1 hnn1 hnn2, cosine_le_one v1 v2 h1 h2 hs1 hs2⟩
  · intro log sqrtQ rows filepath top
    unfold cmd_related
    split
    · trivial
    · split
      · trivial
      · split
        · trivial
        · split
          · trivial
          · exact similarList_no_self _ _ _ _ _

/-- Witness for C7 at concrete vectors and a concrete two-file corpus. -/
theorem c7_cosine_symmetric_bounded_self_excluded_witness :
    (_cosine_similarity [("aa", 1 / 2)] [("ab", 1 / 2), ("aa", 1 / 2)] =
      _cosine_similarity [("ab", 1 / 2), ("aa", 1 / 2)] [("aa", 1 / 2)]) ∧
    (0 ≤ _cosine_similarity [("aa", 1 / 2)] [("ab", 1 / 2), ("aa", 1 / 2)] ∧
      _cosine_similarity [("aa", 1 / 2)] [("ab", 1 / 2), ("aa", 1 / 2)] ≤ 1) ∧
    SelfExcluded (cmd_related (fun _ => 0) (fun x => x)
      [("a.md", "apple banana"), ("b.md", "apple cherry")] "a.md" 5) :=
  ⟨c7_cosine_symmetric_bounded_self_excluded.1
      [("aa", 1 / 2)] [("ab", 1 / 2), ("aa", 1 / 2)] (by decide) (by decide),
   c7_cosine_symmetric_bounded_self_excluded.2.1
      [("aa", 1 / 2)] [("ab", 1 / 2), ("aa", 1 / 2)] (by decide) (by decide)
      (by intro p hp; rcases List.mem_singleton.mp hp with rfl; norm_num)
      (by intro p hp
          rcases List.mem_cons.mp hp with rfl | hp
          · norm_num
          · rcases List.mem_singleton.mp hp with rfl; norm_num)
      (by simp [vecSumSq]; norm_num)
      (by simp [vecSumSq]; norm_num),
   c7_cosine_symmetric_bounded_self_excluded.2.2 (fun _ => 0) (fun x => x)
      [("a.md", "apple banana"), ("b.md", "apple cherry")] "a.md" 5⟩

theorem firstDedupAux_mem : ∀ (l seen : List String) (x : String),
    x ∈ firstDedupAux seen l ↔ x ∈ l ∧ x ∉ seen := by
  intro l
  induction l with
  | nil =>
    intro seen x
    simp [firstDedupAux]
  | cons y ys ih =>
    intro seen x
    by_cases hy : seen.contains y
    · rw [show firstDedupAux seen (y :: ys) = firstDedupAux seen ys from by
        rw [firstDedupAux, if_pos hy]]
      rw [ih seen x, List.mem_cons]
      constructor
      · rintro ⟨hm, hn⟩
        exact ⟨Or.inr hm, hn⟩
      · rintro ⟨hm, hn⟩
        rcases hm with rfl | hm2
        · exact absurd (List.elem_iff.mp hy) hn
        · exact ⟨hm2, hn⟩
    · rw [show firstDedupAux seen (y :: ys) = y :: firstDedupAux (y :: seen) ys from by
        rw [firstDedupAux, if_neg hy]]
      rw [List.mem_cons, ih (y :: seen) x, List.mem_cons, List.mem_cons]
      constructor
      · rintro (rfl | ⟨hm, hn⟩)
        · refine ⟨Or.inl rfl, fun hx => ?_⟩
          exact hy (List.elem_iff.mpr hx)
        · exact ⟨Or.inr hm, fun hx => hn (Or.inr hx)⟩
      · rintro ⟨hm, hn⟩
        rcases hm with rfl | hm2
        · exact Or.inl rfl
        · by_cases hxy : x = y
          · exact Or.inl hxy
          · exact Or.inr ⟨hm2, fun hx => by
              rcases hx with he | hs
              · exact hxy he
              · exact hn hs⟩

theorem firstDedup_mem : ∀ (l : List String) (x : String),
    x ∈ firstDedup l ↔ x ∈ l := by
  intro l x
  unfold firstDedup
  rw [firstDedupAux_mem l [] x]
  simp

theorem firstDedup_ne_nil {l : List String} (h : l ≠ []) : firstDedup l ≠ [] := by
  cases l with
  | nil => exact absurd rfl h
  | cons y ys =>
    unfold firstDedup
    rw [show firstDedupAux [] (y :: ys) = y :: firstDedupAux [y] ys from by
      simp [firstDedupAux]]
    exact List.cons_ne_nil _ _

theorem contains_iff_mem (l : List String) (x : String) :
    l.contains x = true ↔ x ∈ l :=
  List.elem_iff

/-- Every IDF weight is at least 1: `log(total/df) + 1` with
`1 ≤ total/df`, given `log x ≥ 0` for `x ≥ 1`. -/
theorem idf_values_ge_one (log : Rat → Rat) (documents : List (List String))
    (hlog : ∀ x : Rat, 1 ≤ x → 0 ≤ log x) :
    ∀ q ∈ _compute_idf log documents, 1 ≤ q.2 := by
  intro q hq
  unfold _compute_idf at hq
  split at hq
  · cases hq
  · rename_i hne
    obtain ⟨t, ht, rfl⟩ := List.mem_map.mp hq
    have htl : t ∈ (documents.map firstDedup).flatten := (firstDedup_mem _ t).mp ht
    obtain ⟨d0, hd0, htd0⟩ := List.mem_flatten.mp htl
    obtain ⟨d1, hd1, rfl⟩ := List.mem_map.mp hd0
    have htd1 : t ∈ d1 := (firstDedup_mem d1 t).mp htd0
    have hdf1 : 1 ≤ docFreq documents t := by
      unfold docFreq
      have hmemf : d1 ∈ documents.filter fun d => d.contains t := by
        rw [List.mem_filter]
        exact ⟨hd1, (contains_iff_mem d1 t).mpr htd1⟩
      have := List.length_pos.mpr (List.ne_nil_of_mem hmemf)
      omega
    have hdfN : docFreq documents t ≤ documents.length := by
      unfold docFreq
      exact List.length_filter_le _ _
    have hdiv : (1 : Rat) ≤ (documents.length : Rat) / (docFreq documents t : Rat) := by
      rw [le_div_iff₀ (by exact_mod_cast hdf1)]
      rw [one_mul]
      exact_mod_cast hdfN
    have := hlog _ hdiv
    show 1 ≤ log ((documents.length : Rat) / (docFreq documents t : Rat)) + 1
    linarith

/-- Every TF weight of a non-empty token list is positive. -/
theorem tf_values_pos (tokens : List String) :
    ∀ p ∈ _compute_tf tokens, 0 < p.2 := by
  intro p hp
  unfold _compute_tf at hp
  split at hp
  · cases hp
  · rename_i hne
    obtain ⟨t, ht, rfl⟩ := List.mem_map.mp hp
    have htt : t ∈ tokens := (firstDedup_mem tokens t).mp ht
    have hc : 0 < tokens.count t := List.count_pos_iff.mpr htt
    have hl : 1 ≤ tokens.length := by
      have := List.length_pos.mpr (List.ne_nil_of_mem htt)
      omega
    show 0 < ((tokens.count t : Nat) : Rat) / (tokens.length : Rat)
    apply div_pos
    · exact_mod_cast hc
    · exact_mod_cast hl

theorem tf_nonempty (tokens : List String) (h : tokens ≠ []) :
    _compute_tf tokens ≠ [] := by
  unfold _compute_tf
  rw [if_neg (by simpa using h)]
  intro hmap
  exact firstDedup_ne_nil h (List.map_eq_nil_iff.mp hmap)

theorem vecSumSq_pos (v : Vec) (hne : v ≠ []) (hpos : ∀ p ∈ v, 0 < p.2) :
    0 < vecSumSq v := by
  cases v with
  | nil => exact absurd rfl hne
  | cons p rest =>
    have hhead : 0 < p.2 * p.2 := mul_pos (hpos p (by simp)) (hpos p (by simp))
    have hrest : 0 ≤ (rest.map fun q => q.2 * q.2).sum := by
      apply List.sum_nonneg
      intro x hx
      obtain ⟨q, _, rfl⟩ := List.mem_map.mp hx
      exact mul_nonneg (le_of_lt (hpos q (by simp [*]))) (le_of_lt (hpos q (by simp [*])))
    show 0 < ((p :: rest).map fun q => q.2 * q.2).sum
    rw [List.map_cons, List.sum_cons]
    linarith

/-- With a positive square root, normalization maps non-empty TF-IDF
vectors of positive weights to non-empty vectors, and the empty vector to
the empty vector. -/
theorem normalize_eq_nil_iff (sqrtQ : Rat → Rat)
    (hsqrt : ∀ x : Rat, 0 < x → sqrtQ x ≠ 0) (v : Vec)
    (hpos : ∀ p ∈ v, 0 < p.2) :
    _normalize_vector sqrtQ v = [] ↔ v = [] := by
  unfold _normalize_vector
  constructor
  · intro h
    split at h
    · rename_i he
      exact List.isEmpty_iff.mp he
    · split at h
      · rename_i he hm
        exfalso
        have hvne : v ≠ [] := fun hh => by
          rw [hh] at he
          exact he rfl
        exact hsqrt _ (vecSumSq_pos v hvne hpos) hm
      · exact List.map_eq_nil_iff.mp h
  · intro h
    subst h
    rfl

theorem findTarget_mem {documents : List (String × List String)} {filepath : String}
    {t : String × List String} (h : findTarget documents filepath = some t) :
    t ∈ documents := by
  unfold findTarget at h
  cases hf : (documents.reverse).find? (fun d => matchesTargetLoop1 filepath d.1) with
  | some d =>
    rw [hf, Option.some_inj] at h
    subst h
    exact List.mem_reverse.mp (List.mem_of_find?_eq_some hf)
  | none =>
    rw [hf] at h
    exact List.mem_of_find?_eq_some h

theorem findTarget_none_iff (documents : List (String × List String)) (filepath : String) :
    findTarget documents filepath = none ↔
      ∀ d ∈ documents, ¬(matchesTargetLoop1 filepath d.1 = true ∨
        matchesName filepath d.1 = true) := by
  unfold findTarget
  cases hf : (documents.reverse).find? (fun d => matchesTargetLoop1 filepath d.1) with
  | some d =>
    refine iff_of_false (by simp) ?_
    intro hall
    have hd := List.mem_reverse.mp (List.mem_of_find?_eq_some hf)
    have hp : matchesTargetLoop1 filepath d.1 = true := by
      have hq := List.find?_some hf
      simpa using hq
    exact hall d hd (Or.inl hp)
  | none =>
    rw [show (match (none : Option (String × List String)) with
        | some d => some d
        | none => List.find? (fun d => matchesName filepath d.1) documents) =
      List.find? (fun d => matchesName filepath d.1) documents from rfl]
    have hnol : ∀ d ∈ documents, ¬ matchesTargetLoop1 filepath d.1 = true := by
      intro d hd
      exact List.find?_eq_none.mp hf d (List.mem_reverse.mpr hd)
    constructor
    · intro h d hd
      rintro (h1 | h2)
      · exact hnol d hd h1
      · exact List.find?_eq_none.mp h d hd h2
    · intro hall
      rw [List.find?_eq_none]
      intro d hd hname
      exact hall d hd (Or.inr hname)

theorem relatedDocuments_keys (rows : List (String × String)) :
    (relatedDocuments rows).map Prod.fst = rows.map Prod.fst := by
  unfold relatedDocuments
  rw [List.map_map]
  exact List.map_congr_left fun r _ => rfl

theorem tfidf_values_pos (log : Rat → Rat) (tokens : List String)
    (documents : List (List String)) (hlog : ∀ x : Rat, 1 ≤ x → 0 ≤ log x) :
    ∀ p ∈ _compute_tfidf_vector (_compute_tf tokens) (_compute_idf log documents),
      0 < p.2 := by
  intro p hp
  unfold _compute_tfidf_vector at hp
  obtain ⟨q, hq, rfl⟩ := List.mem_map.mp hp
  have hqpos : 0 < q.2 := tf_values_pos tokens q hq
  have hidf : (1 : Rat) ≤ (List.lookup q.1 (_compute_idf log documents)).getD 1 := by
    cases hv : List.lookup q.1 (_compute_idf log documents) with
    | none => exact le_refl 1
    | some w =>
      have := idf_values_ge_one log documents hlog (q.1, w) (vec_lookup_mem hv)
      simpa using this
  show 0 < q.2 * (List.lookup q.1 (_compute_idf log documents)).getD 1
  exact mul_pos hqpos (lt_of_lt_of_le one_pos hidf)

theorem tfidf_eq_nil_iff (tokens : List String) (idf : Vec) :
    _compute_tfidf_vector (_compute_tf tokens) idf = [] ↔ tokens = [] := by
  unfold _compute_tfidf_vector
  rw [List.map_eq_nil_iff]
  constructor
  · intro h
    by_contra hne
    exact tf_nonempty tokens hne h
  · intro h
    subst h
    rfl

theorem cmd_related_of_none (log sqrtQ : Rat → Rat) (rows : List (String × String))
    (filepath : String) (top : Nat) (hr : rows.isEmpty = false)
    (ht : findTarget (relatedDocuments rows) filepath = none) :
    cmd_related log sqrtQ rows filepath top = .notIndexed := by
  unfold cmd_related
  rw [if_neg (by rw [hr]; exact Bool.false_ne_true), ht]

theorem cmd_related_of_some (log sqrtQ : Rat → Rat) (rows : List (String × String))
    (filepath : String) (top : Nat) (target : String × List String)
    (hr : rows.isEmpty = false)
    (ht : findTarget (relatedDocuments rows) filepath = some target) :
    cmd_related log sqrtQ rows filepath top =
      (if (relatedDocuments rows).length < 2 then RelatedOutcome.singleFile target.1
       else if (((relatedVectors log sqrtQ (relatedDocuments rows)).lookup
           target.1).getD []).isEmpty then
         RelatedOutcome.emptyVector target.1
       else
         RelatedOutcome.ok target.1
           (similarList (relatedVectors log sqrtQ (relatedDocuments rows))
             (relatedDocuments rows)
             (((relatedVectors log sqrtQ (relatedDocuments rows)).lookup target.1).getD [])
             target.1 top)) := by
  unfold cmd_related
  rw [if_neg (by rw [hr]; exact Bool.false_ne_true), ht]

/-- C8 (amended): `cmd_related` raises `FileNotIndexedError` exactly when
the index is non-empty and the target resolves by neither exact path,
variant, path-suffix nor filename match; an empty index returns the empty
"No files in index" result instead of raising; a one-document corpus whose
document resolves returns the "Only one file" empty result; and — for a
resolvable target in a corpus of at least two documents with unique paths
— the "no analyzable content" empty result is returned precisely when the
target's TF-IDF vector (equivalently, its token list) is empty. -/
theorem c8_related_resolution_and_empty_results :
    (∀ (log sqrtQ : Rat → Rat) (rows : List (String × String)) (filepath : String)
        (top : Nat),
      cmd_related log sqrtQ rows filepath top = .notIndexed ↔
        (rows ≠ [] ∧ ∀ p ∈ rows.map Prod.fst,
          ¬(matchesTargetLoop1 filepath p = true ∨ matchesName filepath p = true))) ∧
    (∀ (log sqrtQ : Rat → Rat) (filepath : String) (top : Nat),
      cmd_related log sqrtQ [] filepath top = .dbEmpty) ∧
    (∀ (log sqrtQ : Rat → Rat) (r : String × String) (filepath : String) (top : Nat),
      (matchesTargetLoop1 filepath r.1 || matchesName filepath r.1) = true →
      cmd_related log sqrtQ [r] filepath top = .singleFile r.1) ∧
    (∀ (log sqrtQ : Rat → Rat) (rows : List (String × String)) (filepath : String)
        (top : Nat) (target : String × List String),
      (rows.map Prod.fst).Nodup →
      findTarget (relatedDocuments rows) filepath = some target →
      2 ≤ rows.length →
      (∀ x : Rat, 1 ≤ x → 0 ≤ log x) →
      (∀ x : Rat, 0 < x → sqrtQ x ≠ 0) →
      (cmd_related log sqrtQ rows filepath top = .emptyVector target.1 ↔
        target.2 = [])) := by
  refine ⟨?_, ?_, ?_, ?_⟩
  · intro log sqrtQ rows filepath top
    constructor
    · intro h
      by_cases hr : rows.isEmpty = true
      · unfold cmd_related at h
        rw [if_pos hr] at h
        simp at h
      · have hrf : rows.isEmpty = false := by
          cases hb : rows.isEmpty with
          | false => rfl
          | true => exact absurd hb hr
        have hne : rows ≠ [] := fun he => by
          rw [he] at hrf
          simp at hrf
        refine ⟨hne, ?_⟩
        cases hft : findTarget (relatedDocuments rows) filepath with
        | some t =>
          rw [cmd_related_of_some log sqrtQ rows filepath top t hrf hft] at h
          split at h
          · simp at h
          · split at h
            · simp at h
            · simp at h
        | none =>
          intro p hp hmatch
          obtain ⟨r, hr2, rfl⟩ := List.mem_map.mp hp
          have hall := (findTarget_none_iff (relatedDocuments rows) filepath).mp hft
          refine hall (r.1, _tokenize r.2) ?_ hmatch
          unfold relatedDocuments
          exact List.mem_map_of_mem _ hr2
    · rintro ⟨hne, hall⟩
      have hrf : rows.isEmpty = false := by
        cases rows with
        | nil => exact absurd rfl hne
        | cons a t => rfl
      refine cmd_related_of_none log sqrtQ rows filepath top hrf ?_
      rw [findTarget_none_iff]
      intro d hd
      obtain ⟨r, hr2, rfl⟩ := List.mem_map.mp hd
      exact hall r.1 (List.mem_map_of_mem _ hr2)
  · intro log sqrtQ filepath top
    rfl
  · intro log sqrtQ r filepath top hmatch
    have hft : ∃ tk, findTarget (relatedDocuments [r]) filepath = some (r.1, tk) := by
      unfold findTarget relatedDocuments
      rw [List.map_cons, List.map_nil, List.reverse_singleton]
      by_cases h1 : matchesTargetLoop1 filepath r.1 = true
      · rw [List.find?_cons_of_pos _ (by simpa using h1)]
        exact ⟨_, rfl⟩
      · have h2 : matchesName filepath r.1 = true := by
          rcases Bool.or_eq_true_iff.mp hmatch with hx | hx
          · exact absurd hx h1
          · exact hx
        rw [List.find?_cons_of_neg _ (by simpa using h1)]
        rw [show (List.find? (fun d => matchesTargetLoop1 filepath d.1)
          ([] : List (String × List String))) = none from rfl]
        rw [List.find?_cons_of_pos _ (by simpa using h2)]
        exact ⟨_, rfl⟩
    obtain ⟨tk, hft⟩ := hft
    rw [cmd_related_of_some log sqrtQ [r] filepath top (r.1, tk) rfl hft]
    rw [if_pos (by unfold relatedDocuments; simp)]
  · intro log sqrtQ rows filepath top target hnodup htarget hlen hlog hsqrt
    have hrf : rows.isEmpty = false := by
      cases rows with
      | nil => simp at hlen
      | cons a t => rfl
    have hnodup2 : ((relatedDocuments rows).map Prod.fst).Nodup := by
      rw [relatedDocuments_keys]
      exact hnodup
    have hlk : List.lookup target.1 (relatedVectors log sqrtQ (relatedDocuments rows)) =
        some (_normalize_vector sqrtQ (_compute_tfidf_vector (_compute_tf target.2)
          (_compute_idf log ((relatedDocuments rows).map Prod.snd)))) := by
      unfold relatedVectors
      exact lookup_map_of_nodup _ _ hnodup2 target (findTarget_mem htarget)
    have hlen2 : ¬ (relatedDocuments rows).length < 2 := by
      unfold relatedDocuments
      rw [List.length_map]
      omega
    have hnormnil : _normalize_vector sqrtQ (_compute_tfidf_vector (_compute_tf target.2)
        (_compute_idf log ((relatedDocuments rows).map Prod.snd))) = [] ↔
        target.2 = [] := by
      rw [normalize_eq_nil_iff sqrtQ hsqrt _
        (tfidf_values_pos log target.2 ((relatedDocuments rows).map Prod.snd) hlog)]
      exact tfidf_eq_nil_iff target.2 _
    rw [cmd_related_of_some log sqrtQ rows filepath top target hrf htarget,
      if_neg hlen2, hlk, Option.getD_some]
    constructor
    · intro h
      split at h
      · rename_i hcond
        rw [List.isEmpty_iff] at hcond
        exact hnormnil.mp hcond
      · simp at h
    · intro h
      rw [if_pos (by rw [List.isEmpty_iff]; exact hnormnil.mpr h)]

/-- C8 counterexample: with an empty index the target is unresolvable,
yet `cmd_related` returns the empty "No files in index" result rather
than raising `FileNotIndexedError` — refuting "raises exactly when the
target is unresolvable". -/
theorem c8_counterexample :
    cmd_related (fun _ => 0) (fun x => x) [] "missing.md" 5 =
      RelatedOutcome.dbEmpty ∧
    RelatedOutcome.dbEmpty ≠ RelatedOutcome.notIndexed := by
  exact ⟨rfl, by decide⟩

/-- Witness for C8 at a one-document corpus and at a two-document corpus
whose target has no analyzable content. -/
theorem c8_related_resolution_witness :
    (cmd_related (fun _ => 0) (fun x => x) [("a.md", "hello")] "a.md" 5 =
      RelatedOutcome.singleFile "a.md") ∧
    (cmd_related (fun _ => 0) (fun x => x) [("a.md", ""), ("b.md", "hello there")]
        "a.md" 5 = RelatedOutcome.emptyVector ("a.md", ([] : List String)).1 ↔
      ("a.md", ([] : List String)).2 = []) :=
  ⟨c8_related_resolution_and_empty_results.2.2.1 (fun _ => 0) (fun x => x)
      ("a.md", "hello") "a.md" 5 (by decide),
   c8_related_resolution_and_empty_results.2.2.2 (fun _ => 0) (fun x => x)
      [("a.md", ""), ("b.md", "hello there")] "a.md" 5 ("a.md", [])
      (by decide) (by decide) (by decide)
      (fun x _ => le_refl 0) (fun x hx => ne_of_gt hx)⟩

theorem allPairs_mem_iff {α : Type} (l : List α) (a b : α) :
    (a, b) ∈ allPairs l ↔ [a, b].Sublist l := by
  induction l with
  | nil => simp [allPairs]
  | cons r rest ih =>
    rw [allPairs, List.mem_append]
    constructor
    · rintro (hm | hm)
      · rcases List.mem_map.mp hm with ⟨r2, hr2, heq⟩
        injection heq with h1 h2
        subst h1
        subst h2
        exact List.Sublist.cons₂ _ (List.singleton_sublist.mpr hr2)
      · exact List.Sublist.cons r (ih.mp hm)
    · intro hs
      cases hs with
      | cons _ hs2 => exact Or.inr (ih.mpr hs2)
      | cons₂ _ hs2 =>
        exact Or.inl (List.mem_map.mpr ⟨b, List.singleton_sublist.mp hs2, rfl⟩)

theorem insertStr_perm (x : String) (l : List String) :
    (insertStr x l).Perm (x :: l) := by
  induction l with
  | nil => exact List.Perm.refl _
  | cons y ys ih =>
    rw [insertStr]
    split
    · exact List.Perm.refl _
    · exact List.Perm.trans (List.Perm.cons y ih) (List.Perm.swap x y ys)

theorem sortStrings_perm (l : List String) : (sortStrings l).Perm l := by
  induction l with
  | nil => exact List.Perm.refl _
  | cons y ys ih =>
    show (insertStr y (sortStrings ys)).Perm (y :: ys)
    exact List.Perm.trans (insertStr_perm y (sortStrings ys)) (List.Perm.cons y ih)

theorem insertNear_mem (x : NearDup) (l : List NearDup) :
    ∀ z, z ∈ insertNear x l ↔ z = x ∨ z ∈ l := by
  induction l with
  | nil => intro z; simp [insertNear]
  | cons y ys ih =>
    intro z
    rw [insertNear]
    split
    · simp
    · rw [List.mem_cons, ih z, List.mem_cons]
      tauto

theorem insertNear_sorted (x : NearDup) (l : List NearDup)
    (h : l.Pairwise fun a b => b.similarity ≤ a.similarity) :
    (insertNear x l).Pairwise fun a b => b.similarity ≤ a.similarity := by
  induction l with
  | nil => simp [insertNear]
  | cons y ys ih =>
    rw [insertNear]
    obtain ⟨hy, hys⟩ := List.pairwise_cons.mp h
    split
    · rename_i hlt
      refine List.pairwise_cons.mpr ⟨?_, h⟩
      intro z hz
      rcases List.mem_cons.mp hz with rfl | hz
      · exact le_of_lt hlt
      · exact le_trans (hy z hz) (le_of_lt hlt)
    · rename_i hnlt
      refine List.pairwise_cons.mpr ⟨?_, ih hys⟩
      intro z hz
      rcases (insertNear_mem x ys z).mp hz with rfl | hz
      · exact le_of_not_lt hnlt
      · exact hy z hz

theorem sortNearDesc_sorted (l : List NearDup) :
    (sortNearDesc l).Pairwise fun a b => b.similarity ≤ a.similarity := by
  induction l with
  | nil => exact List.Pairwise.nil
  | cons y ys ih => exact insertNear_sorted y (sortNearDesc ys) ih

theorem sortNearDesc_mem (l : List NearDup) :
    ∀ z, z ∈ sortNearDesc l ↔ z ∈ l := by
  induction l with
  | nil => intro z; rfl
  | cons y ys ih =>
    intro z
    rw [show sortNearDesc (y :: ys) = insertNear y (sortNearDesc ys) from rfl,
      insertNear_mem, ih z, List.mem_cons]

theorem one_lt_length_of_two_mem {α : Type} {l : List α} {a b : α}
    (ha : a ∈ l) (hb : b ∈ l) (hab : a ≠ b) : 1 < l.length := by
  cases l with
  | nil => exact absurd ha (List.not_mem_nil a)
  | cons x xs =>
    cases xs with
    | nil =>
      rw [List.mem_singleton] at ha hb
      exact absurd (ha.trans hb.symm) hab
    | cons y ys =>
      simp only [List.length_cons]
      omega

theorem groupPaths_mem {rows : List DupRow} {r : DupRow} (hr : r ∈ rows)
    {h : String} (hh : r.content_hash = h) :
    r.file_path ∈ groupPaths rows h := by
  unfold groupPaths
  exact List.mem_map.mpr ⟨r, List.mem_filter.mpr ⟨hr, by simp [hh]⟩, rfl⟩

theorem hashGroups_mem {rows : List DupRow} {r : DupRow} (hr : r ∈ rows) :
    (r.content_hash, groupPaths rows r.content_hash) ∈ hashGroups rows := by
  unfold hashGroups
  refine List.mem_map.mpr ⟨r.content_hash, ?_, rfl⟩
  rw [firstDedup_mem]
  exact List.mem_map.mpr ⟨r, hr, rfl⟩

theorem exactPaths_intro {rows : List DupRow} {r : DupRow} (hr : r ∈ rows)
    (hlen : 1 < (groupPaths rows r.content_hash).length) :
    r.file_path ∈ exactPaths rows := by
  unfold exactPaths
  rw [List.mem_flatten]
  refine ⟨groupPaths rows r.content_hash, ?_, groupPaths_mem hr rfl⟩
  rw [List.mem_map]
  refine ⟨(r.content_hash, groupPaths rows r.content_hash), ?_, rfl⟩
  rw [List.mem_filter]
  exact ⟨hashGroups_mem hr, by simpa using hlen⟩

theorem exactDuplicates_mem {rows : List DupRow} {g : DupGroup}
    (hg : g ∈ exactDuplicates rows) :
    g.count = (groupPaths rows g.content_hash).length ∧ 1 < g.count ∧
      g.files.Perm (groupPaths rows g.content_hash) := by
  unfold exactDuplicates at hg
  rcases List.mem_map.mp hg with ⟨g0, hg0, rfl⟩
  rcases List.mem_filter.mp hg0 with ⟨hmem, hlen⟩
  unfold hashGroups at hmem
  rcases List.mem_map.mp hmem with ⟨h, hh, rfl⟩
  exact ⟨rfl, by simpa using hlen, sortStrings_perm _⟩

theorem exactDuplicates_complete {rows : List DupRow} {h : String}
    (hlen : 1 < (groupPaths rows h).length) :
    ∃ g ∈ exactDuplicates rows, g.content_hash = h ∧
      g.count = (groupPaths rows h).length := by
  have hne : groupPaths rows h ≠ [] := by
    intro he
    rw [he] at hlen
    simp at hlen
  obtain ⟨p, hp⟩ := List.exists_mem_of_ne_nil _ hne
  unfold groupPaths at hp
  rcases List.mem_map.mp hp with ⟨r, hrf, rfl⟩
  rcases List.mem_filter.mp hrf with ⟨hr, hbeq⟩
  have hhash : r.content_hash = h := by simpa using hbeq
  refine ⟨{ content_hash := h, files := sortStrings (groupPaths rows h),
            count := (groupPaths rows h).length }, ?_, rfl, rfl⟩
  unfold exactDuplicates
  refine List.mem_map.mpr ⟨(h, groupPaths rows h), ?_, rfl⟩
  rw [List.mem_filter]
  exact ⟨hhash ▸ hashGroups_mem hr, by simpa using hlen⟩

theorem nearCandidate_pair (exactP : List String) (r1 r2 : DupRow) :
    nearCandidate exactP (r1, r2) =
      (if exactP.contains r1.file_path || exactP.contains r2.file_path then none
       else if r1.content_hash == r2.content_hash then none
       else if (8 : Rat) / 10 ≤
           _compute_prefix_similarity (prefix500 r1) (prefix500 r2) then
         some { files := [r1.file_path, r2.file_path],
                similarity :=
                  _compute_prefix_similarity (prefix500 r1) (prefix500 r2) }
       else none) := rfl

/-- **C9.** Duplicate detection.  Under the store invariant that file
paths are unique (the files table declares `file_path TEXT UNIQUE NOT
NULL`): every exact-duplicate group reported by `cmd_duplicates` is a
fingerprint group of more than one document, carrying that group's full
path list and its size as `count`; conversely every fingerprint held by
more than one document yields such a group; a pair appears among the
near duplicates exactly when the two documents occur at distinct
positions of the scan, neither belongs to an exact-duplicate group, and
their whitespace-collapsed 500-character prefixes score at least 0.80
positional similarity; and the near-duplicate list is sorted by
similarity descending. -/
theorem c9_duplicate_detection (rows : List DupRow)
    (hnd : (rows.map (·.file_path)).Nodup) :
    (∀ g ∈ (cmd_duplicates rows).exact_duplicates,
        g.count = (groupPaths rows g.content_hash).length ∧ 1 < g.count ∧
          g.files.Perm (groupPaths rows g.content_hash)) ∧
    (∀ h : String, 1 < (groupPaths rows h).length →
        ∃ g ∈ (cmd_duplicates rows).exact_duplicates,
          g.content_hash = h ∧ g.count = (groupPaths rows h).length) ∧
    (∀ x : NearDup, x ∈ (cmd_duplicates rows).near_duplicates ↔
        ∃ r1 r2 : DupRow, [r1, r2].Sublist rows ∧
          r1.file_path ∉ exactPaths rows ∧ r2.file_path ∉ exactPaths rows ∧
          (8 : Rat) / 10 ≤
            _compute_prefix_similarity (prefix500 r1) (prefix500 r2) ∧
          x = { files := [r1.file_path, r2.file_path],
                similarity :=
                  _compute_prefix_similarity (prefix500 r1) (prefix500 r2) }) ∧
    ((cmd_duplicates rows).near_duplicates.Pairwise
      fun a b => b.similarity ≤ a.similarity) := by
  have hcd : (cmd_duplicates rows).exact_duplicates = exactDuplicates rows := rfl
  have hcn : (cmd_duplicates rows).near_duplicates = nearDuplicates rows := rfl
  refine ⟨?_, ?_, ?_, ?_⟩
  · intro g hg
    rw [hcd] at hg
    exact exactDuplicates_mem hg
  · intro h hlen
    rw [hcd]
    exact exactDuplicates_complete hlen
  · intro x
    rw [hcn]
    unfold nearDuplicates
    rw [sortNearDesc_mem, List.mem_filterMap]
    constructor
    · rintro ⟨p, hp, hc⟩
      obtain ⟨r1, r2⟩ := p
      rw [nearCandidate_pair] at hc
      split at hc
      · simp at hc
      · split at hc
        · simp at hc
        · split at hc
          · rename_i hor hbeq hsim
            rw [Option.some_inj] at hc
            refine ⟨r1, r2, (allPairs_mem_iff rows r1 r2).mp hp, ?_, ?_, hsim,
              hc.symm⟩
            · intro hmem
              refine hor ?_
              rw [Bool.or_eq_true]
              exact Or.inl ((contains_iff_mem _ _).mpr hmem)
            · intro hmem
              refine hor ?_
              rw [Bool.or_eq_true]
              exact Or.inr ((contains_iff_mem _ _).mpr hmem)
          · simp at hc
    · rintro ⟨r1, r2, hs, hn1, hn2, hsim, hx⟩
      have hr1 : r1 ∈ rows := hs.subset (by simp)
      have hr2 : r2 ∈ rows := hs.subset (by simp)
      have hpp : r1.file_path ≠ r2.file_path := by
        have hsm : [r1.file_path, r2.file_path].Sublist (rows.map (·.file_path)) := by
          have := hs.map (·.file_path)
          simpa using this
        have hnd2 : [r1.file_path, r2.file_path].Nodup := hnd.sublist hsm
        rcases List.nodup_cons.mp hnd2 with ⟨hni, _⟩
        intro he
        exact hni (he ▸ List.mem_singleton.mpr rfl)
      have hneq : r1.content_hash ≠ r2.content_hash := by
        intro heq
        have hp2 : r2.file_path ∈ groupPaths rows r1.content_hash :=
          groupPaths_mem hr2 heq.symm
        have hp1 : r1.file_path ∈ groupPaths rows r1.content_hash :=
          groupPaths_mem hr1 rfl
        have hlen : 1 < (groupPaths rows r1.content_hash).length :=
          one_lt_length_of_two_mem hp1 hp2 hpp
        exact hn1 (exactPaths_intro hr1 hlen)
      refine ⟨(r1, r2), (allPairs_mem_iff rows r1 r2).mpr hs, ?_⟩
      have hor : ¬(((exactPaths rows).contains r1.file_path ||
          (exactPaths rows).contains r2.file_path) = true) := by
        simp only [Bool.or_eq_true]
        rintro (hcb | hcb)
        · exact hn1 ((contains_iff_mem _ _).mp hcb)
        · exact hn2 ((contains_iff_mem _ _).mp hcb)
      have hbeq : ¬((r1.content_hash == r2.content_hash) = true) := by
        rw [beq_iff_eq]
        exact hneq
      rw [nearCandidate_pair, if_neg hor, if_neg hbeq, if_pos hsim, hx]
  · rw [hcn]
    unfold nearDuplicates
    exact sortNearDesc_sorted _

/-- Witness for C9 at the spec scenario: two files with identical
content and fingerprint form one exact-duplicate group of size 2 and no
near-duplicate pair, and the near-duplicate list is sorted. -/
theorem c9_duplicate_detection_witness :
    ((cmd_duplicates [⟨"a.md", "h1", "# Intro\nhello world\n"⟩,
        ⟨"b.md", "h1", "# Intro\nhello world\n"⟩]).exact_duplicates =
      [⟨"h1", ["a.md", "b.md"], 2⟩] ∧
     (cmd_duplicates [⟨"a.md", "h1", "# Intro\nhello world\n"⟩,
        ⟨"b.md", "h1", "# Intro\nhello world\n"⟩]).near_duplicates = []) ∧
    ((cmd_duplicates [⟨"a.md", "h1", "# Intro\nhello world\n"⟩,
        ⟨"b.md", "h1", "# Intro\nhello world\n"⟩]).near_duplicates.Pairwise
      fun a b => b.similarity ≤ a.similarity) :=
  ⟨⟨by decide, by decide⟩,
   (c9_duplicate_detection [⟨"a.md", "h1", "# Intro\nhello world\n"⟩,
      ⟨"b.md", "h1", "# Intro\nhello world\n"⟩] (by decide)).2.2.2⟩

theorem eq_of_nodup_key {α β : Type} (f : α → β) {l : List α}
    (hnd : (l.map f).Nodup) {a b : α} (ha : a ∈ l) (hb : b ∈ l)
    (hfe : f a = f b) : a = b := by
  induction l with
  | nil => exact absurd ha (List.not_mem_nil a)
  | cons x xs ih =>
    rw [List.map_cons] at hnd
    rcases List.nodup_cons.mp hnd with ⟨hnm, hnd2⟩
    rcases List.mem_cons.mp ha with rfl | ha2
    · rcases List.mem_cons.mp hb with rfl | hb2
      · rfl
      · have hbm : f b ∈ xs.map f := List.mem_map.mpr ⟨b, hb2, rfl⟩
        rw [← hfe] at hbm
        exact absurd hbm hnm
    · rcases List.mem_cons.mp hb with rfl | hb2
      · have ham : f a ∈ xs.map f := List.mem_map.mpr ⟨a, ha2, rfl⟩
        rw [hfe] at ham
        exact absurd ham hnm
      · exact ih hnd2 ha2 hb2

theorem scan_error_not_current {scan : List ScanFile}
    (hnd : (scan.map (·.path)).Nodup) {p : String} (hp : p ∈ scanErrors scan) :
    p ∉ (current_files scan).map (·.1) := by
  intro hc
  unfold scanErrors at hp
  rcases List.mem_map.mp hp with ⟨f, hf, rfl⟩
  rcases List.mem_filter.mp hf with ⟨hfs, hnone⟩
  rcases List.mem_map.mp hc with ⟨q, hq, hq1⟩
  unfold current_files at hq
  rcases List.mem_filterMap.mp hq with ⟨f2, hf2, hmap⟩
  cases hh : f2.hash with
  | none =>
    rw [hh] at hmap
    simp at hmap
  | some h =>
    rw [hh] at hmap
    simp at hmap
    have hpath : f2.path = f.path := by rw [← hq1, ← hmap]
    have hfe : f2 = f := eq_of_nodup_key (·.path) hnd hf2 hfs hpath
    rw [hfe] at hh
    rw [hh] at hnone
    simp at hnone

/-- **C1.** Every indexing pass is all-or-nothing: an exception raised
anywhere inside the transaction (deletions, upserts of files, FTS rows
or sections, manifest update) yields the pre-pass store unchanged
together with the re-raised wrapping error, a pass reporting no error
has committed the complete transaction result, and every pass ends in
one of those two states — no partial commit is observable. -/
theorem c1_transaction_rollback (hashFn : String → String) (st : Store)
    (scan : List ScanFile) :
    (∀ e, (index_files_model hashFn st scan).2 = some e →
        (index_files_model hashFn st scan).1 = st ∧
        ∃ msg, e = "Indexing failed, rolled back: " ++ msg ∧
          txBody hashFn st scan = Except.error msg) ∧
    ((index_files_model hashFn st scan).2 = none →
        txBody hashFn st scan = Except.ok (index_files_model hashFn st scan).1) ∧
    ((index_files_model hashFn st scan).1 = st ∨
        txBody hashFn st scan = Except.ok (index_files_model hashFn st scan).1) := by
  unfold index_files_model
  cases h : txBody hashFn st scan with
  | ok st2 =>
    refine ⟨?_, ?_, Or.inr rfl⟩
    · intro e he
      simp at he
    · intro _
      rfl
  | error e =>
    refine ⟨?_, ?_, Or.inl rfl⟩
    · intro e2 he2
      simp at he2
      exact ⟨rfl, e, he2.symm, rfl⟩
    · intro hn
      simp at hn

/-- Witness for C1: a store holding a stale FTS row at the next rowid
makes the FTS insert of a fresh file raise mid-transaction, after the
deletion phase already ran; the pass reports the wrapped error and the
observable store is exactly the pre-pass one. -/
theorem c1_transaction_rollback_witness :
    (index_files_model (fun _ => "")
        { files := [⟨1, "b.md", "b.md", "markdown", "# B\nx", "hb"⟩],
          files_fts := [(1, "# B\nx"), (2, "junk")],
          file_sections := [⟨1, 1, 2⟩], manifest := none, next_id := 2 }
        [⟨"a.md", some "ha", some "# A\nbody"⟩]).2 =
      some "Indexing failed, rolled back: UNIQUE constraint failed: files_fts.rowid" ∧
    (index_files_model (fun _ => "")
        { files := [⟨1, "b.md", "b.md", "markdown", "# B\nx", "hb"⟩],
          files_fts := [(1, "# B\nx"), (2, "junk")],
          file_sections := [⟨1, 1, 2⟩], manifest := none, next_id := 2 }
        [⟨"a.md", some "ha", some "# A\nbody"⟩]).1 =
      { files := [⟨1, "b.md", "b.md", "markdown", "# B\nx", "hb"⟩],
        files_fts := [(1, "# B\nx"), (2, "junk")],
        file_sections := [⟨1, 1, 2⟩], manifest := none, next_id := 2 } :=
  ⟨by decide,
   ((c1_transaction_rollback (fun _ => "")
      { files := [⟨1, "b.md", "b.md", "markdown", "# B\nx", "hb"⟩],
        files_fts := [(1, "# B\nx"), (2, "junk")],
        file_sections := [⟨1, 1, 2⟩], manifest := none, next_id := 2 }
      [⟨"a.md", some "ha", some "# A\nbody"⟩]).1
      "Indexing failed, rolled back: UNIQUE constraint failed: files_fts.rowid"
      (by decide)).1⟩

/-- **C2 (corrected).** Change detection: additions are exactly the
scanned-and-hashed paths absent from the store, deletions exactly the
stored paths absent from the scanned map, paths in both maps split into
changed and unchanged exactly by fingerprint inequality, the four sets
are pairwise disjoint, and a file whose hashing raised lands in the
error list and in none of additions, changed, or unchanged — but, being
absent from the scanned map, a previously indexed such file does land in
deletions. -/
theorem c2_change_detection (indexed : List (String × String)) (scan : List ScanFile)
    (hnd : (scan.map (·.path)).Nodup) :
    (∀ p, p ∈ to_add indexed scan ↔
        p ∈ (current_files scan).map (·.1) ∧ p ∉ indexed.map (·.1)) ∧
    (∀ p, p ∈ to_delete indexed scan ↔
        p ∈ indexed.map (·.1) ∧ p ∉ (current_files scan).map (·.1)) ∧
    (∀ p, p ∈ to_update indexed scan ↔
        p ∈ indexed.map (·.1) ∧ p ∈ (current_files scan).map (·.1) ∧
          (current_files scan).lookup p ≠ indexed.lookup p) ∧
    (∀ p, p ∈ unchangedKeys indexed scan ↔
        p ∈ indexed.map (·.1) ∧ p ∈ (current_files scan).map (·.1) ∧
          (current_files scan).lookup p = indexed.lookup p) ∧
    (∀ p, (p ∈ to_add indexed scan → p ∉ to_delete indexed scan ∧
            p ∉ to_update indexed scan ∧ p ∉ unchangedKeys indexed scan) ∧
          (p ∈ to_delete indexed scan → p ∉ to_update indexed scan ∧
            p ∉ unchangedKeys indexed scan) ∧
          (p ∈ to_update indexed scan → p ∉ unchangedKeys indexed scan)) ∧
    (∀ p ∈ scanErrors scan, p ∉ to_add indexed scan ∧
        p ∉ to_update indexed scan ∧ p ∉ unchangedKeys indexed scan) := by
  have hA : ∀ p, p ∈ to_add indexed scan ↔
      p ∈ (current_files scan).map (·.1) ∧ p ∉ indexed.map (·.1) := by
    intro p
    unfold to_add
    rw [List.mem_filter]
    simp
  have hD : ∀ p, p ∈ to_delete indexed scan ↔
      p ∈ indexed.map (·.1) ∧ p ∉ (current_files scan).map (·.1) := by
    intro p
    unfold to_delete
    rw [List.mem_filter]
    simp
  have hC : ∀ p, p ∈ to_check indexed scan ↔
      p ∈ indexed.map (·.1) ∧ p ∈ (current_files scan).map (·.1) := by
    intro p
    unfold to_check
    rw [List.mem_filter]
    simp
  have hU : ∀ p, p ∈ to_update indexed scan ↔
      p ∈ indexed.map (·.1) ∧ p ∈ (current_files scan).map (·.1) ∧
        (current_files scan).lookup p ≠ indexed.lookup p := by
    intro p
    unfold to_update
    rw [List.mem_filter, hC p]
    simp [and_assoc]
  have hN : ∀ p, p ∈ unchangedKeys indexed scan ↔
      p ∈ indexed.map (·.1) ∧ p ∈ (current_files scan).map (·.1) ∧
        (current_files scan).lookup p = indexed.lookup p := by
    intro p
    unfold unchangedKeys
    rw [List.mem_filter, hC p]
    simp [and_assoc]
  refine ⟨hA, hD, hU, hN, ?_, ?_⟩
  · intro p
    refine ⟨?_, ?_, ?_⟩
    · intro h
      rcases (hA p).mp h with ⟨hcur, hni⟩
      exact ⟨fun hd => hni ((hD p).mp hd).1,
        fun hu => hni ((hU p).mp hu).1,
        fun hn => hni ((hN p).mp hn).1⟩
    · intro h
      rcases (hD p).mp h with ⟨hix, hnc⟩
      exact ⟨fun hu => hnc ((hU p).mp hu).2.1,
        fun hn => hnc ((hN p).mp hn).2.1⟩
    · intro h
      rcases (hU p).mp h with ⟨hix, hcur, hne⟩
      exact fun hn => hne ((hN p).mp hn).2.2
  · intro p hp
    have hnc := scan_error_not_current hnd hp
    exact ⟨fun ha => hnc ((hA p).mp ha).1,
      fun hu => hnc ((hU p).mp hu).2.1,
      fun hn => hnc ((hN p).mp hn).2.1⟩

/-- Counterexample to C2 as stated: an indexed file whose hashing raises
on the next scan is recorded in the error list yet also appears in the
deletion set. -/
theorem c2_counterexample :
    "a" ∈ scanErrors [⟨"a", none, none⟩] ∧
    "a" ∈ to_delete [("a", "h")] [⟨"a", none, none⟩] := by
  decide

/-- Witness for C2 on a concrete scan: one unchanged file, one changed
file, one new file, one deleted file and one unreadable file. -/
theorem c2_change_detection_witness :
    "new.md" ∈ to_add [("same.md", "h1"), ("chg.md", "h2"), ("gone.md", "h3")]
      [⟨"same.md", some "h1", some "x"⟩, ⟨"chg.md", some "h9", some "y"⟩,
       ⟨"new.md", some "h4", some "z"⟩, ⟨"bad.md", none, none⟩] ∧
    "chg.md" ∈ to_update [("same.md", "h1"), ("chg.md", "h2"), ("gone.md", "h3")]
      [⟨"same.md", some "h1", some "x"⟩, ⟨"chg.md", some "h9", some "y"⟩,
       ⟨"new.md", some "h4", some "z"⟩, ⟨"bad.md", none, none⟩] ∧
    "bad.md" ∉ to_add [("same.md", "h1"), ("chg.md", "h2"), ("gone.md", "h3")]
      [⟨"same.md", some "h1", some "x"⟩, ⟨"chg.md", some "h9", some "y"⟩,
       ⟨"new.md", some "h4", some "z"⟩, ⟨"bad.md", none, none⟩] :=
  ⟨by decide, by decide,
   ((c2_change_detection [("same.md", "h1"), ("chg.md", "h2"), ("gone.md", "h3")]
      [⟨"same.md", some "h1", some "x"⟩, ⟨"chg.md", some "h9", some "y"⟩,
       ⟨"new.md", some "h4", some "z"⟩, ⟨"bad.md", none, none⟩]
      (by decide)).2.2.2.2.2 "bad.md" (by decide)).1⟩

end VaultLib
